import Mathlib

/-!
Verification of the tAI calculator (tai.py / biochem.py / utils.py).

The Python code is shallowly embedded: sequences and dictionary keys are
lists of characters, Python dicts are association lists preserving insertion
order, Python floats are modelled as exact numbers (rationals for the table
arithmetic; the geometric mean produces a real number), and Python
exceptions are modelled by the `PyErr` type threaded through `Except` or
returned alongside the mutated state.  The s-value table `s_dict` is loaded
from an external CSV data file, so the development is parametric in a total
lookup function `sv : Char -> Char -> Rat` (the loader guarantees totality by
defaulting missing pairings to 1).
-/

set_option maxRecDepth 100000

/-- Python exceptions relevant to this code, plus the EmptySequenceError that
the specification postulates (the source never defines or raises it). -/
inductive PyErr where
  | keyError
  | typeError
  | valueError
  | zeroDivisionError
  | emptySequenceError
deriving DecidableEq

/-- A codon, anticodon or dictionary key: a Python string as a list of
characters. -/
abbrev Codon := List Char

/-- A Python dict with `Codon` keys, as an insertion-ordered association
list. -/
abbrev PyDict (V : Type) := List (Codon × V)

/-- Python dict lookup `d[k]`: first (unique) matching key. -/
def dictGet {V : Type} (d : PyDict V) (k : Codon) : Option V :=
  match d with
  | [] => none
  | (k', v) :: rest => if k' = k then some v else dictGet rest k

/-- Python dict assignment `d[k] = v`: replace in place if the key exists
(keeping its position), otherwise append at the end. -/
def dictSet {V : Type} (d : PyDict V) (k : Codon) (v : V) : PyDict V :=
  match d with
  | [] => [(k, v)]
  | (k', v') :: rest =>
      if k' = k then (k, v) :: rest else (k', v') :: dictSet rest k v

/-- Python `str.lower()` restricted to ASCII letters (the only characters the
claims range over). -/
def pyLower (c : Char) : Char :=
  if 'A' ≤ c ∧ c ≤ 'Z' then Char.ofNat (c.toNat + 32) else c

/-- The `bases = "tcag"` string from biochem.py. -/
def basesList : List Char := ['t', 'c', 'a', 'g']

/-- The `codons` list from biochem.py: all 64 triplets over `bases`, in the
source's generation order. -/
def codonsAll : List Codon :=
  basesList.flatMap (fun x => basesList.flatMap (fun y =>
    basesList.map (fun z => [x, y, z])))

/-- The `complement` dict from biochem.py; `none` models a `KeyError`. -/
def complement (c : Char) : Option Char :=
  if c = 't' then some 'a'
  else if c = 'u' then some 'a'
  else if c = 'a' then some 't'
  else if c = 'c' then some 'g'
  else if c = 'g' then some 'c'
  else none

/-- The character-by-character complementation loop of `rev_compl`: the first
character missing from the `complement` dict raises a `KeyError`. -/
def complChain : List Char → Except PyErr (List Char)
  | [] => .ok []
  | c :: rest =>
      match complement c with
      | none => .error .keyError
      | some c' => (complChain rest).map (fun r => c' :: r)

/-- biochem.py `rev_compl(sequence, use_uracil)`: reverse, lower-case, then
complement each character; optionally write the result with uracil. -/
def rev_compl (seq : List Char) (use_uracil : Bool) : Except PyErr (List Char) :=
  (complChain ((seq.reverse).map pyLower)).map (fun r =>
    if use_uracil then r.map (fun c => if c = 't' then 'u' else c) else r)

/-- biochem.py `anticodons(codon)`: the four strings `b + rev_compl(codon[:2])`
for `b` in `bases`. -/
def anticodons (c : Codon) : Except PyErr (List Codon) :=
  (rev_compl (c.take 2) false).map (fun rc => basesList.map (fun b => b :: rc))

/-- Normalization applied at every ingestion point:
`.lower().replace("u", "t")`. -/
def normSeq (s : List Char) : List Char :=
  (s.map pyLower).map (fun c => if c = 'u' then 't' else c)

/-- Segmentation `[seq[i:i+3] for i in range(0, (len(seq)//3)*3, 3)]`:
non-overlapping triples from position 0, dropping a trailing partial codon. -/
def chunk3 : List Char → List Codon
  | a :: b :: c :: rest => [a, b, c] :: chunk3 rest
  | _ => []

/-- The `codons_to_remove` set of biochem.py. -/
def codons_to_remove : List Codon :=
  [['a','t','g'], ['t','a','a'], ['t','g','a'], ['t','a','g']]

/-- biochem.py `get_sequence_codons(seq)`: normalize, segment into codons,
drop methionine and stop codons.  (The length warning is a non-fatal
diagnostic and has no effect on the value.) -/
def get_sequence_codons (seq : List Char) : List Codon :=
  (chunk3 (normSeq seq)).filter (fun c => !decide (c ∈ codons_to_remove))

/-- utils.py `geo_mean(xs)`: `product(xs) ** (1/len(xs))`.  `reduce` over an
empty list raises a `TypeError` before the exponent is evaluated. -/
noncomputable def geo_mean (xs : List ℝ) : Except PyErr ℝ :=
  match xs with
  | [] => .error .typeError
  | _ => .ok (Real.rpow xs.prod (1 / (xs.length : ℝ)))

/-- Shorthand for the codon written as a character list. -/
def cATG : Codon := ['a','t','g']

/-- Shorthand for the codon written as a character list. -/
def cTAA : Codon := ['t','a','a']

/-- Shorthand for the codon written as a character list. -/
def cTAG : Codon := ['t','a','g']

/-- Shorthand for the codon written as a character list. -/
def cTGA : Codon := ['t','g','a']

/-- Shorthand for the codon written as a character list. -/
def cATA : Codon := ['a','t','a']

/-- Shorthand for the codon written as a character list. -/
def cCAT : Codon := ['c','a','t']

/-- tai.py `TAI.get_s(codon, anticodon)`: validity check against
`anticodons(codon)` (a `ValueError` on failure), then the table lookup on the
third codon base and the (possibly modified) recognizing base. -/
def get_s (sv : Char → Char → ℚ) (c a : Codon) : Except PyErr ℚ :=
  match anticodons c with
  | .error e => .error e
  | .ok As =>
      if a ∉ As then .error .valueError
      else
        let third := c.getD 2 ' '
        let r0 := a.getD 0 ' '
        let r1 := if r0 = 'a' then 'i' else r0
        let r2 := if c = cATA ∧ a = cCAT then 'l' else r1
        .ok (sv third r2)

/-- The accumulation loop of `TAI.get_W`:
`W += (1 - get_s(codon, anticodon)) * tGCN_dict[anticodon]` over the listed
anticodons; a missing dict entry raises a `KeyError`. -/
def sumW (sv : Char → Char → ℚ) (d : PyDict ℚ) (c : Codon) :
    List Codon → ℚ → Except PyErr ℚ
  | [], acc => .ok acc
  | a :: rest, acc =>
      match get_s sv c a with
      | .error e => .error e
      | .ok s =>
          match dictGet d a with
          | none => .error .keyError
          | some g => sumW sv d c rest (acc + (1 - s) * g)

/-- The numeric branches of `TAI.get_W` (the `ata` special case and the
anticodon sum), reached exactly when the codon is not methionine or stop. -/
def get_W_num (sv : Char → Char → ℚ) (d : PyDict ℚ) (c : Codon) :
    Except PyErr ℚ :=
  if c = cATA then (get_s sv c cCAT).map (fun s => (1 - s) * 1)
  else
    match anticodons c with
    | .error e => .error e
    | .ok As => sumW sv d c As 0

/-- tai.py `TAI.get_W(codon)`: `None` for methionine and stop codons,
otherwise the numeric branches of `get_W_num`. -/
def get_W (sv : Char → Char → ℚ) (d : PyDict ℚ) (c : Codon) :
    Except PyErr (Option ℚ) :=
  if c ∈ [cATG, cTGA, cTAA, cTAG] then .ok none
  else (get_W_num sv d c).map some

/-- The `W_dict` construction loop of `TAI.set_w_dict`: iterate over all 64
codons in order, skipping methionine and stop codons. -/
def buildW (sv : Char → Char → ℚ) (d : PyDict ℚ) :
    List Codon → Except PyErr (PyDict ℚ)
  | [] => .ok []
  | c :: rest =>
      if c ∈ [cATG, cTAA, cTAG, cTGA] then buildW sv d rest
      else
        match get_W_num sv d c with
        | .error e => .error e
        | .ok w => (buildW sv d rest).map (fun l => (c, w) :: l)

/-- Python `max` over a list: a `ValueError` on an empty list, otherwise a
fold of the binary max. -/
def pyMax : List ℚ → Except PyErr ℚ
  | [] => .error .valueError
  | x :: xs => .ok (xs.foldl max x)

/-- tai.py `TAI.set_w_dict()`: build `W_dict`, divide by the maximum (a
`ZeroDivisionError` when the maximum is 0), then substitute the geometric
mean of the non-zero values for every zero value. -/
noncomputable def set_w (sv : Char → Char → ℚ) (d : PyDict ℚ) :
    Except PyErr (PyDict ℝ) :=
  match buildW sv d codonsAll with
  | .error e => .error e
  | .ok Wl =>
      match pyMax (Wl.map (fun p => p.2)) with
      | .error e => .error e
      | .ok m =>
          if m = 0 then .error .zeroDivisionError
          else
            let wq := Wl.map (fun p => (p.1, p.2 / m))
            if 0 < (wq.filter (fun p => decide (p.2 = 0))).length then
              match geo_mean ((wq.filter (fun p => !decide (p.2 = 0))).map
                  (fun p => ((p.2 : ℚ) : ℝ))) with
              | .error e => .error e
              | .ok gm =>
                  .ok (wq.map (fun p =>
                    (p.1, if p.2 = 0 then gm else ((p.2 : ℚ) : ℝ))))
            else .ok (wq.map (fun p => (p.1, ((p.2 : ℚ) : ℝ))))

/-- The state of a `TAI` calculator object: the tRNA gene copy number table
and the normalized weight table. -/
structure TAI where
  tGCN_dict : PyDict ℚ
  w_dict : PyDict ℝ

/-- The first loop of `TAI.set_tGCN_dict`:
`tGCN_dict[k.lower().replace("u","t")] = tRNA_counts_dict[k]` over the input
keys in order. -/
def normFold : List (Codon × ℚ) → PyDict ℚ → PyDict ℚ
  | [], d => d
  | p :: l, d => normFold l (dictSet d (normSeq p.1) p.2)

/-- The second loop of `TAI.set_tGCN_dict`: give every triplet of `codons`
that is still missing a count of 0. -/
def fillZeros : List Codon → PyDict ℚ → PyDict ℚ
  | [], d => d
  | t :: l, d => fillZeros l (if (dictGet d t).isSome then d else dictSet d t 0)

/-- tai.py `TAI.set_tGCN_dict`: normalize every input key, then give every
missing triplet of `codons` a count of 0 (insertion order preserved). -/
def set_tGCN (counts : PyDict ℚ) : PyDict ℚ :=
  fillZeros codonsAll (normFold counts [])

/-- The effect of the `set_w_dict` call at the end of `update`: on success
the recomputed weight table is installed, on failure the exception escapes
and the stale weight table stays in place. -/
def applyW (t1 : TAI) (r : Except PyErr (PyDict ℝ)) : TAI × Option PyErr :=
  match r with
  | .ok w => (⟨t1.tGCN_dict, w⟩, none)
  | .error e => (t1, some e)

/-- tai.py `TAI.update`: replace `tGCN_dict`, then recompute `w_dict`; a
failure in the recompute step leaves the already-replaced `tGCN_dict` and the
stale `w_dict` behind. -/
noncomputable def TAI.update (sv : Char → Char → ℚ) (t : TAI)
    (counts : PyDict ℚ) : TAI × Option PyErr :=
  applyW ⟨set_tGCN counts, t.w_dict⟩ (set_w sv (set_tGCN counts))

/-- tai.py `TAI.__init__`: both tables start unset (modelled as empty) and
`update` is called on the initial counts. -/
noncomputable def TAI.construct (sv : Char → Char → ℚ) (counts : PyDict ℚ) :
    TAI × Option PyErr :=
  TAI.update sv ⟨[], []⟩ counts

/-- The mutation loop of `TAI.add_tRNA_genes`:
`tGCN_dict[normalized k] += counts[k] * expr_level` over the input keys in
order; a missing entry raises a `KeyError`, leaving the updates already made
in place. -/
def addLoop (d : PyDict ℚ) (expr : ℚ) :
    List (Codon × ℚ) → PyDict ℚ × Option PyErr
  | [] => (d, none)
  | (k, v) :: rest =>
      match dictGet d (normSeq k) with
      | none => (d, some .keyError)
      | some g => addLoop (dictSet d (normSeq k) (g + v * expr)) expr rest

/-- tai.py `TAI.add_tRNA_genes(tRNA_counts_dict, expr_level)`: additive
update of `tGCN_dict`; `w_dict` is not recomputed. -/
def TAI.add_tRNA_genes (t : TAI) (counts : PyDict ℚ) (expr : ℚ) :
    TAI × Option PyErr :=
  let r := addLoop t.tGCN_dict expr counts
  (⟨r.1, t.w_dict⟩, r.2)

/-- The weight-lookup comprehension of `TAI.get_tai`:
`[self.w_dict[codon] for codon in seq_codons]`; a missing codon raises a
`KeyError`. -/
def lookupW (w : PyDict ℝ) : List Codon → Except PyErr (List ℝ)
  | [] => .ok []
  | c :: rest =>
      match dictGet w c with
      | none => .error .keyError
      | some v => (lookupW w rest).map (fun r => v :: r)

/-- tai.py `TAI.get_tai(seq)`: lower-case the sequence codons, look up their
weights, and return the geometric mean. -/
noncomputable def TAI.get_tai (t : TAI) (seq : List Char) : Except PyErr ℝ :=
  match lookupW t.w_dict ((get_sequence_codons seq).map
      (fun c => c.map pyLower)) with
  | .error e => .error e
  | .ok ws => geo_mean ws

theorem dictGet_cons {V : Type} (k' : Codon) (v : V) (d : PyDict V) (k : Codon) :
    dictGet ((k', v) :: d) k = if k' = k then some v else dictGet d k := rfl

theorem dictSet_cons {V : Type} (k' : Codon) (v' : V) (d : PyDict V)
    (k : Codon) (v : V) :
    dictSet ((k', v') :: d) k v =
      if k' = k then (k, v) :: d else (k', v') :: dictSet d k v := rfl

theorem dictGet_dictSet_self {V : Type} (d : PyDict V) (k : Codon) (v : V) :
    dictGet (dictSet d k v) k = some v := by
  induction d with
  | nil => simp [dictGet, dictSet]
  | cons p rest ih =>
      obtain ⟨k', v'⟩ := p
      rw [dictSet_cons]
      by_cases h : k' = k
      · rw [if_pos h, dictGet_cons, if_pos rfl]
      · rw [if_neg h, dictGet_cons, if_neg h, ih]

theorem dictGet_dictSet_ne {V : Type} (d : PyDict V) (k a : Codon) (v : V)
    (h : k ≠ a) : dictGet (dictSet d k v) a = dictGet d a := by
  induction d with
  | nil => simp [dictGet, dictSet, h]
  | cons p rest ih =>
      obtain ⟨k', v'⟩ := p
      rw [dictSet_cons]
      by_cases h2 : k' = k
      · rw [if_pos h2, dictGet_cons, dictGet_cons, if_neg (h2 ▸ h),
          if_neg (h2 ▸ h)]
      · rw [if_neg h2, dictGet_cons, dictGet_cons]
        by_cases h3 : k' = a
        · rw [if_pos h3, if_pos h3]
        · rw [if_neg h3, if_neg h3, ih]

theorem isSome_dictGet_dictSet {V : Type} (d : PyDict V) (k a : Codon) (v : V)
    (h : (dictGet d a).isSome) : (dictGet (dictSet d k v) a).isSome := by
  by_cases hk : k = a
  · subst hk; simp [dictGet_dictSet_self]
  · rwa [dictGet_dictSet_ne d k a v hk]

theorem mem_of_dictGet {V : Type} (d : PyDict V) (k : Codon) (v : V)
    (h : dictGet d k = some v) : (k, v) ∈ d := by
  induction d with
  | nil => simp [dictGet] at h
  | cons p rest ih =>
      obtain ⟨k', v'⟩ := p
      rw [dictGet_cons] at h
      by_cases h2 : k' = k
      · rw [if_pos h2] at h
        obtain rfl : v' = v := by simpa using h
        exact h2 ▸ List.mem_cons_self _ _
      · rw [if_neg h2] at h
        exact List.mem_cons_of_mem _ (ih h)

theorem mem_dictSet {V : Type} (d : PyDict V) (k : Codon) (v : V) (p : Codon × V)
    (h : p ∈ dictSet d k v) : p = (k, v) ∨ p ∈ d := by
  induction d with
  | nil => simpa [dictSet] using h
  | cons q rest ih =>
      obtain ⟨k', v'⟩ := q
      rw [dictSet_cons] at h
      by_cases h2 : k' = k
      · rw [if_pos h2] at h
        rcases List.mem_cons.mp h with h3 | h3
        · exact Or.inl h3
        · exact Or.inr (List.mem_cons_of_mem _ h3)
      · rw [if_neg h2] at h
        rcases List.mem_cons.mp h with h3 | h3
        · exact Or.inr (h3 ▸ List.mem_cons_self _ _)
        · rcases ih h3 with h4 | h4
          · exact Or.inl h4
          · exact Or.inr (List.mem_cons_of_mem _ h4)

theorem normFold_mem (l : List (Codon × ℚ)) (d : PyDict ℚ) (p : Codon × ℚ)
    (h : p ∈ normFold l d) : p ∈ d ∨ ∃ q ∈ l, p.1 = normSeq q.1 := by
  induction l generalizing d with
  | nil => exact Or.inl h
  | cons q rest ih =>
      rcases ih _ h with h2 | h2
      · rcases mem_dictSet _ _ _ _ h2 with h3 | h3
        · exact Or.inr ⟨q, List.mem_cons_self _ _, by rw [h3]⟩
        · exact Or.inl h3
      · obtain ⟨r, hr, hr2⟩ := h2
        exact Or.inr ⟨r, List.mem_cons_of_mem _ hr, hr2⟩

theorem normFold_none (l : List (Codon × ℚ)) (d : PyDict ℚ) (c : Codon)
    (hd : dictGet d c = none) (h : ∀ p ∈ l, normSeq p.1 ≠ c) :
    dictGet (normFold l d) c = none := by
  induction l generalizing d with
  | nil => exact hd
  | cons q rest ih =>
      refine ih _ ?_ (fun p hp => h p (List.mem_cons_of_mem _ hp))
      rw [dictGet_dictSet_ne _ _ _ _ (h q (List.mem_cons_self _ _))]
      exact hd

theorem fillZeros_step (t : Codon) (l : List Codon) (d : PyDict ℚ) :
    fillZeros (t :: l) d =
      fillZeros l (if (dictGet d t).isSome then d else dictSet d t 0) := rfl

theorem fillZeros_preserve (l : List Codon) (d : PyDict ℚ) (c : Codon) (v : ℚ)
    (h : dictGet d c = some v) : dictGet (fillZeros l d) c = some v := by
  induction l generalizing d with
  | nil => exact h
  | cons t rest ih =>
      rw [fillZeros_step]
      refine ih _ ?_
      by_cases ht : (dictGet d t).isSome
      · rwa [if_pos ht]
      · rw [if_neg ht]
        by_cases htc : t = c
        · rw [htc, h] at ht; simp at ht
        · rwa [dictGet_dictSet_ne _ _ _ _ htc]

theorem fillZeros_mem_isSome (l : List Codon) (d : PyDict ℚ) (c : Codon)
    (h : c ∈ l) : (dictGet (fillZeros l d) c).isSome := by
  induction l generalizing d with
  | nil => simp at h
  | cons t rest ih =>
      rw [fillZeros_step]
      by_cases h2 : c ∈ rest
      · exact ih _ h2
      · have h3 : t = c := by
          rcases List.mem_cons.mp h with h4 | h4
          · exact h4.symm
          · exact absurd h4 h2
        by_cases ht : (dictGet d t).isSome
        · rw [if_pos ht]
          obtain ⟨v, hv⟩ := Option.isSome_iff_exists.mp (h3 ▸ ht)
          rw [fillZeros_preserve rest d c v hv]
          rfl
        · rw [if_neg ht, h3]
          rw [fillZeros_preserve rest _ c 0 (dictGet_dictSet_self d c 0)]
          rfl

theorem fillZeros_absent (l : List Codon) (d : PyDict ℚ) (c : Codon)
    (hd : dictGet d c = none) (h : c ∈ l) :
    dictGet (fillZeros l d) c = some 0 := by
  induction l generalizing d with
  | nil => simp at h
  | cons t rest ih =>
      rw [fillZeros_step]
      by_cases htc : t = c
      · have ht : ¬ (dictGet d t).isSome := by rw [htc, hd]; simp
        rw [if_neg ht, htc]
        exact fillZeros_preserve rest _ c 0 (dictGet_dictSet_self d c 0)
      · have h2 : c ∈ rest := by
          rcases List.mem_cons.mp h with h3 | h3
          · exact absurd h3.symm htc
          · exact h3
        refine ih _ ?_ h2
        by_cases ht : (dictGet d t).isSome
        · rwa [if_pos ht]
        · rw [if_neg ht]
          rwa [dictGet_dictSet_ne _ _ _ _ htc]

theorem fillZeros_key_mem (l : List Codon) (d : PyDict ℚ) (p : Codon × ℚ)
    (h : p ∈ fillZeros l d) : p ∈ d ∨ p.1 ∈ l := by
  induction l generalizing d with
  | nil => exact Or.inl h
  | cons t rest ih =>
      rw [fillZeros_step] at h
      rcases ih _ h with h2 | h2
      · by_cases ht : (dictGet d t).isSome
        · rw [if_pos ht] at h2
          exact Or.inl h2
        · rw [if_neg ht] at h2
          rcases mem_dictSet _ _ _ _ h2 with h3 | h3
          · exact Or.inr (by rw [h3]; exact List.mem_cons_self _ _)
          · exact Or.inl h3
      · exact Or.inr (List.mem_cons_of_mem _ h2)

/-- A fixed concrete s-value table used to instantiate parametric theorems:
every pairing has affinity 0 (a perfectly permissive table). -/
def svZero : Char → Char → ℚ := fun _ _ => 0

theorem TAI.update_eq (sv : Char → Char → ℚ) (t : TAI) (counts : PyDict ℚ) :
    TAI.update sv t counts =
      applyW ⟨set_tGCN counts, t.w_dict⟩ (set_w sv (set_tGCN counts)) := rfl

theorem TAI.construct_eq (sv : Char → Char → ℚ) (counts : PyDict ℚ) :
    TAI.construct sv counts = TAI.update sv ⟨[], []⟩ counts := rfl

theorem applyW_ok (t1 : TAI) (w : PyDict ℝ) :
    applyW t1 (.ok w) = (⟨t1.tGCN_dict, w⟩, none) := rfl

theorem applyW_err (t1 : TAI) (e : PyErr) :
    applyW t1 (.error e) = (t1, some e) := rfl

theorem update_fst_tGCN (sv : Char → Char → ℚ) (t : TAI) (counts : PyDict ℚ) :
    (TAI.update sv t counts).1.tGCN_dict = set_tGCN counts := by
  rw [TAI.update_eq]
  generalize set_w sv (set_tGCN counts) = r
  cases r with
  | ok w => rw [applyW_ok]
  | error e => rw [applyW_err]

/-- Claim C8: after `construct(initial_counts)` or `update(new_counts)` the
tGCN table has an entry for all 64 anticodons, every anticodon absent from
the normalized input keys has count 0, `update` is a full replacement of the
previous table (its resulting tGCN does not depend on the prior state), and
after `update({})` every anticodon's tGCN is 0. -/
theorem claim_C8 (sv : Char → Char → ℚ) (t : TAI) (counts : PyDict ℚ) :
    (TAI.update sv t counts).1.tGCN_dict = set_tGCN counts
    ∧ (TAI.construct sv counts).1.tGCN_dict = set_tGCN counts
    ∧ (∀ c ∈ codonsAll, (dictGet (set_tGCN counts) c).isSome)
    ∧ (∀ c ∈ codonsAll, (∀ p ∈ counts, normSeq p.1 ≠ c) →
        dictGet (set_tGCN counts) c = some 0)
    ∧ (∀ c ∈ codonsAll,
        dictGet ((TAI.update sv t ([] : PyDict ℚ)).1.tGCN_dict) c = some 0) := by
  have he : set_tGCN counts = fillZeros codonsAll (normFold counts []) := rfl
  have hcon : (TAI.construct sv counts).1.tGCN_dict = set_tGCN counts := by
    rw [TAI.construct_eq]
    exact update_fst_tGCN sv ⟨[], []⟩ counts
  refine ⟨update_fst_tGCN sv t counts, hcon,
    fun c hc => ?_, fun c hc habs => ?_, fun c hc => ?_⟩
  · rw [he]
    exact fillZeros_mem_isSome codonsAll _ c hc
  · rw [he]
    exact fillZeros_absent codonsAll _ c (normFold_none counts [] c rfl habs) hc
  · rw [update_fst_tGCN, show set_tGCN ([] : PyDict ℚ) =
      fillZeros codonsAll (normFold [] []) from rfl]
    exact fillZeros_absent codonsAll _ c rfl hc

/-- Witness for C8 at a concrete input: the key 'AAA' normalizes to 'aaa', so
after an update from {'AAA': 5} the codon 'ata' (absent from the input) has
count 0, and after `update({})` the codon 'aaa' has count 0. -/
theorem claim_C8_witness :
    dictGet (set_tGCN [((['A','A','A'] : Codon), (5 : ℚ))]) cATA = some 0
    ∧ dictGet ((TAI.update svZero ⟨[], []⟩ ([] : PyDict ℚ)).1.tGCN_dict)
        (['a','a','a'] : Codon) = some 0 :=
  ⟨(claim_C8 svZero ⟨[], []⟩ [((['A','A','A'] : Codon), (5 : ℚ))]).2.2.2.1
      cATA (by decide) (by decide),
    (claim_C8 svZero ⟨[], []⟩ ([] : PyDict ℚ)).2.2.2.2
      (['a','a','a'] : Codon) (by decide)⟩

/-- The lower-case DNA alphabet. -/
def dnaBases : List Char := ['a', 'c', 'g', 't']

/-- Total version of the `complement` lookup, for statements about valid
bases. -/
def complT (c : Char) : Char := (complement c).getD ' '

theorem pyLower_base (c : Char) (h : c ∈ dnaBases) : pyLower c = c := by
  simp only [dnaBases, List.mem_cons, List.not_mem_nil, or_false] at h
  rcases h with rfl | rfl | rfl | rfl <;> decide

theorem complT_mem (c : Char) (h : c ∈ dnaBases) : complT c ∈ dnaBases := by
  simp only [dnaBases, List.mem_cons, List.not_mem_nil, or_false] at h
  rcases h with rfl | rfl | rfl | rfl <;> decide

theorem complT_complT (c : Char) (h : c ∈ dnaBases) : complT (complT c) = c := by
  simp only [dnaBases, List.mem_cons, List.not_mem_nil, or_false] at h
  rcases h with rfl | rfl | rfl | rfl <;> decide

theorem complement_isSome (c : Char) (h : c ∈ dnaBases) :
    (complement c).isSome := by
  simp only [dnaBases, List.mem_cons, List.not_mem_nil, or_false] at h
  rcases h with rfl | rfl | rfl | rfl <;> decide

theorem complChain_ok (l : List Char) (h : ∀ c ∈ l, (complement c).isSome) :
    complChain l = .ok (l.map complT) := by
  induction l with
  | nil => rfl
  | cons c rest ih =>
      obtain ⟨c', hc'⟩ := Option.isSome_iff_exists.mp
        (h c (List.mem_cons_self _ _))
      simp only [complChain, hc',
        ih (fun a ha => h a (List.mem_cons_of_mem _ ha)), Except.map,
        List.map_cons]
      simp [complT, hc']

theorem rev_compl_ok (x : List Char) (h : ∀ c ∈ x, c ∈ dnaBases) :
    rev_compl x false = .ok (x.reverse.map complT) := by
  unfold rev_compl
  have h2 : x.reverse.map pyLower = x.reverse := by
    rw [show x.reverse.map pyLower = x.reverse.map id from
      List.map_congr_left
        (fun a ha => pyLower_base a (h a (List.mem_reverse.mp ha)))]
    exact List.map_id _
  rw [h2, complChain_ok _
    (fun c hc => complement_isSome c (h c (List.mem_reverse.mp hc)))]
  rfl

/-- Counterexample to C6 as stated: 'u' is a valid input character, but the
double reverse-complement of "u" is "t", not "u" (the complement maps both
`t` and `u` to `a`, and complementing back yields `t`). -/
theorem claim_C6_cex :
    (rev_compl ['u'] false).bind (fun y => rev_compl y false) = .ok ['t']
    ∧ (['t'] : List Char) ≠ ['u'] := by
  exact ⟨rfl, by decide⟩

/-- Claim C6 (amended): for every sequence over the lower-case DNA alphabet
{a,c,g,t}, applying `rev_compl` twice returns the sequence unchanged. -/
theorem claim_C6 (x : List Char) (h : ∀ c ∈ x, c ∈ dnaBases) :
    (rev_compl x false).bind (fun y => rev_compl y false) = .ok x := by
  rw [rev_compl_ok x h]
  have hy : ∀ c ∈ x.reverse.map complT, c ∈ dnaBases := by
    intro c hc
    obtain ⟨a, ha, rfl⟩ := List.mem_map.mp hc
    exact complT_mem a (h a (List.mem_reverse.mp ha))
  have hb : (Except.ok (x.reverse.map complT) :
      Except PyErr (List Char)).bind (fun y => rev_compl y false) =
      rev_compl (x.reverse.map complT) false := rfl
  rw [hb, rev_compl_ok _ hy]
  have h3 : (x.reverse.map complT).reverse.map complT = x := by
    rw [← List.map_reverse, List.reverse_reverse, List.map_map]
    rw [show x.map (complT ∘ complT) = x.map id from
      List.map_congr_left (fun a ha => complT_complT a (h a ha))]
    exact List.map_id _
  rw [h3]

/-- Witness for C6 (amended) at the concrete sequence "gatc". -/
theorem claim_C6_witness :
    (rev_compl ['g','a','t','c'] false).bind (fun y => rev_compl y false) =
      .ok ['g','a','t','c'] :=
  claim_C6 ['g','a','t','c'] (by decide)

theorem set_tGCN_eq (counts : PyDict ℚ) :
    set_tGCN counts = fillZeros codonsAll (normFold counts []) := rfl

theorem TAI.add_eq (t : TAI) (counts : PyDict ℚ) (expr : ℚ) :
    TAI.add_tRNA_genes t counts expr =
      (⟨(addLoop t.tGCN_dict expr counts).1, t.w_dict⟩,
        (addLoop t.tGCN_dict expr counts).2) := rfl

theorem addLoop_spec (l : List (Codon × ℚ)) (d : PyDict ℚ) (expr : ℚ)
    (hpres : ∀ p ∈ l, (dictGet d (normSeq p.1)).isSome)
    (hnd : (l.map (fun p => normSeq p.1)).Nodup) :
    (addLoop d expr l).2 = none
    ∧ (∀ p ∈ l, dictGet (addLoop d expr l).1 (normSeq p.1) =
        some ((dictGet d (normSeq p.1)).getD 0 + p.2 * expr))
    ∧ (∀ a : Codon, (∀ p ∈ l, normSeq p.1 ≠ a) →
        dictGet (addLoop d expr l).1 a = dictGet d a) := by
  induction l generalizing d with
  | nil => exact ⟨rfl, by simp, fun a _ => rfl⟩
  | cons q rest ih =>
      obtain ⟨k, v⟩ := q
      obtain ⟨g, hg⟩ := Option.isSome_iff_exists.mp
        (hpres (k, v) (List.mem_cons_self _ _))
      have hstep : addLoop d expr ((k, v) :: rest) =
          addLoop (dictSet d (normSeq k) (g + v * expr)) expr rest := by
        simp [addLoop, hg]
      rw [show (((k, v) :: rest).map (fun p => normSeq p.1)) =
        normSeq k :: rest.map (fun p => normSeq p.1) from rfl] at hnd
      have hne : ∀ p ∈ rest, normSeq p.1 ≠ normSeq k := by
        intro p hp hcontra
        exact (List.nodup_cons.mp hnd).1 (List.mem_map.mpr ⟨p, hp, hcontra⟩)
      have hpres2 : ∀ p ∈ rest,
          (dictGet (dictSet d (normSeq k) (g + v * expr)) (normSeq p.1)).isSome :=
        fun p hp => isSome_dictGet_dictSet _ _ _ _
          (hpres p (List.mem_cons_of_mem _ hp))
      have hnd2 : (rest.map (fun p => normSeq p.1)).Nodup :=
        (List.nodup_cons.mp hnd).2
      obtain ⟨ih1, ih2, ih3⟩ := ih _ hpres2 hnd2
      rw [hstep]
      refine ⟨ih1, ?_, ?_⟩
      · intro p hp
        rcases List.mem_cons.mp hp with hp2 | hp2
        · rw [hp2]
          rw [ih3 (normSeq k) (fun p2 hp2 => hne p2 hp2),
            dictGet_dictSet_self, hg]
          rfl
        · rw [ih2 p hp2,
            dictGet_dictSet_ne _ _ _ _ (fun h => hne p hp2 h.symm)]
      · intro a ha
        rw [ih3 a (fun p hp => ha p (List.mem_cons_of_mem _ hp)),
          dictGet_dictSet_ne _ _ _ _ (ha (k, v) (List.mem_cons_self _ _))]

/-- Claim C7: for a counts mapping whose normalized keys are distinct and all
present in the tGCN table, `add_tRNA_genes(counts, expr_level)` succeeds,
adds exactly `count * expr_level` to each listed anticodon's tGCN entry,
leaves every other anticodon's entry unchanged, and leaves the weight table
untouched. -/
theorem claim_C7 (t : TAI) (counts : PyDict ℚ) (expr : ℚ)
    (hpres : ∀ p ∈ counts, (dictGet t.tGCN_dict (normSeq p.1)).isSome)
    (hnd : (counts.map (fun p => normSeq p.1)).Nodup) :
    (TAI.add_tRNA_genes t counts expr).2 = none
    ∧ (∀ p ∈ counts,
        dictGet (TAI.add_tRNA_genes t counts expr).1.tGCN_dict (normSeq p.1) =
          some ((dictGet t.tGCN_dict (normSeq p.1)).getD 0 + p.2 * expr))
    ∧ (∀ a : Codon, (∀ p ∈ counts, normSeq p.1 ≠ a) →
        dictGet (TAI.add_tRNA_genes t counts expr).1.tGCN_dict a =
          dictGet t.tGCN_dict a)
    ∧ (TAI.add_tRNA_genes t counts expr).1.w_dict = t.w_dict := by
  obtain ⟨h1, h2, h3⟩ := addLoop_spec counts t.tGCN_dict expr hpres hnd
  rw [TAI.add_eq]
  exact ⟨h1, h2, h3, rfl⟩

/-- Witness for C7 at the concrete instance from the claim: starting from
tGCN['aaa'] = 5, `add_tRNA_genes({'aaa': 2}, expr_level=0.5)` succeeds,
makes tGCN['aaa'] = 6 (an increase of exactly 1), and leaves the entry of
'ccc' (i.e. any other anticodon) unchanged. -/
theorem claim_C7_witness :
    (TAI.add_tRNA_genes ⟨[((['a','a','a'] : Codon), (5 : ℚ))], []⟩
      [((['a','a','a'] : Codon), (2 : ℚ))] (1/2)).2 = none
    ∧ dictGet (TAI.add_tRNA_genes ⟨[((['a','a','a'] : Codon), (5 : ℚ))], []⟩
        [((['a','a','a'] : Codon), (2 : ℚ))] (1/2)).1.tGCN_dict
        ['a','a','a'] = some 6
    ∧ dictGet (TAI.add_tRNA_genes ⟨[((['a','a','a'] : Codon), (5 : ℚ))], []⟩
        [((['a','a','a'] : Codon), (2 : ℚ))] (1/2)).1.tGCN_dict
        ['c','c','c'] =
      dictGet [((['a','a','a'] : Codon), (5 : ℚ))] ['c','c','c'] := by
  have h := claim_C7 ⟨[((['a','a','a'] : Codon), (5 : ℚ))], []⟩
    [((['a','a','a'] : Codon), (2 : ℚ))] (1/2) (by decide) (by decide)
  refine ⟨h.1, ?_, ?_⟩
  · have h2 := h.2.1 ((['a','a','a'] : Codon), (2 : ℚ))
      (List.mem_cons_self _ _)
    rw [show normSeq ['a','a','a'] = ['a','a','a'] from rfl] at h2
    rw [h2, show (dictGet (⟨[((['a','a','a'] : Codon), (5 : ℚ))], []⟩ :
      TAI).tGCN_dict ['a','a','a']).getD 0 = 5 from rfl]
    norm_num
  · exact h.2.2.1 ['c','c','c'] (by decide)

theorem dictGet_none_of_keys (d : PyDict ℚ) (k : Codon)
    (h : ∀ p ∈ d, p.1 ≠ k) : dictGet d k = none := by
  induction d with
  | nil => rfl
  | cons p rest ih =>
      obtain ⟨k', v'⟩ := p
      rw [dictGet_cons, if_neg (h (k', v') (List.mem_cons_self _ _))]
      exact ih (fun p hp => h p (List.mem_cons_of_mem _ hp))

theorem set_tGCN_keys (counts : PyDict ℚ) (p : Codon × ℚ)
    (h : p ∈ set_tGCN counts) :
    (∃ q ∈ counts, p.1 = normSeq q.1) ∨ p.1 ∈ codonsAll := by
  rw [set_tGCN_eq] at h
  rcases fillZeros_key_mem codonsAll _ p h with h2 | h2
  · rcases normFold_mem counts [] p h2 with h3 | h3
    · simp at h3
    · exact Or.inl h3
  · exact Or.inr h2

theorem addLoop_bad (l : List (Codon × ℚ)) (d : PyDict ℚ) (expr : ℚ)
    (hkeys : ∀ p ∈ d, p.1 ∈ codonsAll)
    (hbad : ∃ q ∈ l, normSeq q.1 ∉ codonsAll) :
    (addLoop d expr l).2 = some .keyError := by
  induction l generalizing d with
  | nil => simp at hbad
  | cons q0 rest ih =>
      obtain ⟨k, v⟩ := q0
      cases hdk : dictGet d (normSeq k) with
      | none => simp [addLoop, hdk]
      | some g =>
          have hmem : normSeq k ∈ codonsAll :=
            hkeys (normSeq k, g) (mem_of_dictGet d _ g hdk)
          have hbad2 : ∃ q ∈ rest, normSeq q.1 ∉ codonsAll := by
            obtain ⟨q, hq, hq2⟩ := hbad
            rcases List.mem_cons.mp hq with hq3 | hq3
            · rw [hq3] at hq2
              exact absurd hmem hq2
            · exact ⟨q, hq3, hq2⟩
          have hkeys2 : ∀ p ∈ dictSet d (normSeq k) (g + v * expr),
              p.1 ∈ codonsAll := by
            intro p hp
            rcases mem_dictSet _ _ _ _ hp with h3 | h3
            · rw [h3]
              exact hmem
            · exact hkeys p h3
          rw [show addLoop d expr ((k, v) :: rest) =
            addLoop (dictSet d (normSeq k) (g + v * expr)) expr rest from by
              simp [addLoop, hdk]]
          exact ih _ hkeys2 hbad2

/-- Claim C10: if the calculator was constructed from counts whose keys all
normalize into the 64 triplets, then `add_tRNA_genes` on a counts mapping
containing a key whose normalized form is not one of the 64 triplets fails
with a `KeyError` (the method reads the existing tGCN entry instead of
defaulting it to 0). -/
theorem claim_C10 (sv : Char → Char → ℚ) (counts0 d : PyDict ℚ) (expr : ℚ)
    (h0 : ∀ p ∈ counts0, normSeq p.1 ∈ codonsAll)
    (hbad : ∃ q ∈ d, normSeq q.1 ∉ codonsAll) :
    (TAI.add_tRNA_genes (TAI.construct sv counts0).1 d expr).2 =
      some .keyError := by
  have hkeys : ∀ p ∈ (TAI.construct sv counts0).1.tGCN_dict,
      p.1 ∈ codonsAll := by
    intro p hp
    rw [TAI.construct_eq, update_fst_tGCN] at hp
    rcases set_tGCN_keys counts0 p hp with h2 | h2
    · obtain ⟨q, hq, hq2⟩ := h2
      rw [hq2]
      exact h0 q hq
    · exact h2
  rw [TAI.add_eq]
  exact addLoop_bad d _ expr hkeys hbad

/-- Witness for C10 at a concrete input: a calculator built from
{'aaa': 1} fails with a `KeyError` when `add_tRNA_genes` is called with the
invalid anticodon key 'xxx'. -/
theorem claim_C10_witness :
    (TAI.add_tRNA_genes
      (TAI.construct svZero [((['a','a','a'] : Codon), (1 : ℚ))]).1
      [((['x','x','x'] : Codon), (1 : ℚ))] 1).2 = some .keyError :=
  claim_C10 svZero [((['a','a','a'] : Codon), (1 : ℚ))]
    [((['x','x','x'] : Codon), (1 : ℚ))] 1 (by decide) (by decide)

/-- The four anticodons of a valid codon, written as a total function:
each base of `bases` followed by the reverse complement of the codon's
first two bases. -/
def anticodonsT (c : Codon) : List Codon :=
  basesList.map (fun b => [b, complT (c.getD 1 ' '), complT (c.getD 0 ' ')])

/-- The recognizing base used by `get_s` for a valid codon-anticodon pair:
the anticodon's first base, with adenine read as inosine and the
('ata','cat') pair read as lysidine. -/
def recog (c a : Codon) : Char :=
  if c = cATA ∧ a = cCAT then (if a.getD 0 ' ' = 'a' then 'i' else a.getD 0 ' ')
  else (if a.getD 0 ' ' = 'a' then 'i' else a.getD 0 ' ')

/-- The affinity looked up by `get_s` on a valid pair (total form). -/
def paff (sv : Char → Char → ℚ) (c a : Codon) : ℚ :=
  sv (c.getD 2 ' ')
    (if c = cATA ∧ a = cCAT then 'l'
     else if a.getD 0 ' ' = 'a' then 'i' else a.getD 0 ' ')

/-- The raw codon weight W as a total function of the tGCN table: the `ata`
token weight, or the sum over the codon's four anticodons of
`(1 - affinity) * tGCN[anticodon]` (missing entries read as 0; they never
occur on well-formed tables). -/
def rawW (sv : Char → Char → ℚ) (d : PyDict ℚ) (c : Codon) : ℚ :=
  if c = cATA then (1 - paff sv cATA cCAT) * 1
  else ((anticodonsT c).map
    (fun a => (1 - paff sv c a) * (dictGet d a).getD 0)).sum

theorem mem_codonsAll_iff (c : Codon) :
    c ∈ codonsAll ↔ ∃ x ∈ basesList, ∃ y ∈ basesList, ∃ z ∈ basesList,
      c = [x, y, z] := by
  simp only [codonsAll, List.mem_flatMap, List.mem_map]
  constructor
  · rintro ⟨x, hx, y, hy, z, hz, rfl⟩
    exact ⟨x, hx, y, hy, z, hz, rfl⟩
  · rintro ⟨x, hx, y, hy, z, hz, rfl⟩
    exact ⟨x, hx, y, hy, z, hz, rfl⟩

theorem basesList_sub_dna (b : Char) (h : b ∈ basesList) : b ∈ dnaBases := by
  fin_cases h <;> decide

theorem complT_basesList (b : Char) (h : b ∈ basesList) :
    complT b ∈ basesList := by
  fin_cases h <;> decide

theorem anticodons_valid (c : Codon) (hc : c ∈ codonsAll) :
    anticodons c = .ok (anticodonsT c) := by
  obtain ⟨x, hx, y, hy, z, hz, rfl⟩ := (mem_codonsAll_iff c).mp hc
  unfold anticodons
  rw [show ([x, y, z] : Codon).take 2 = [x, y] from rfl]
  rw [rev_compl_ok [x, y] ?hv]
  · rfl
  · intro ch hch
    rcases List.mem_cons.mp hch with h2 | h2
    · exact h2 ▸ basesList_sub_dna x hx
    · rcases List.mem_cons.mp h2 with h3 | h3
      · exact h3 ▸ basesList_sub_dna y hy
      · simp at h3

theorem anticodonsT_sub (c : Codon) (hc : c ∈ codonsAll) (a : Codon)
    (ha : a ∈ anticodonsT c) : a ∈ codonsAll := by
  obtain ⟨x, hx, y, hy, z, hz, rfl⟩ := (mem_codonsAll_iff c).mp hc
  obtain ⟨b, hb, rfl⟩ := List.mem_map.mp ha
  refine (mem_codonsAll_iff _).mpr ⟨b, hb, ?_⟩
  exact ⟨complT (([x, y, z] : Codon).getD 1 ' '),
    complT_basesList y hy, complT (([x, y, z] : Codon).getD 0 ' '),
    complT_basesList x hx, rfl⟩

theorem anticodonsT_nodup (c : Codon) : (anticodonsT c).Nodup := by
  refine List.Nodup.map ?_ (by decide)
  intro b1 b2 h
  simpa using h

theorem anticodonsT_length (c : Codon) : (anticodonsT c).length = 4 := rfl

theorem get_s_valid (sv : Char → Char → ℚ) (c a : Codon) (hc : c ∈ codonsAll)
    (ha : a ∈ anticodonsT c) : get_s sv c a = .ok (paff sv c a) := by
  by_cases hspec : c = cATA ∧ a = cCAT
  · simp only [get_s, anticodons_valid c hc, ha, paff, hspec, if_true,
      and_self, if_pos]
    rfl
  · simp [get_s, anticodons_valid c hc, ha, paff, hspec]

theorem sumW_eval (sv : Char → Char → ℚ) (d : PyDict ℚ) (c : Codon)
    (hc : c ∈ codonsAll) (l : List Codon) (acc : ℚ)
    (hl : ∀ a ∈ l, a ∈ anticodonsT c ∧ (dictGet d a).isSome) :
    sumW sv d c l acc =
      .ok (acc + (l.map
        (fun a => (1 - paff sv c a) * (dictGet d a).getD 0)).sum) := by
  induction l generalizing acc with
  | nil => simp [sumW]
  | cons a rest ih =>
      obtain ⟨ha, hsome⟩ := hl a (List.mem_cons_self _ _)
      obtain ⟨g, hg⟩ := Option.isSome_iff_exists.mp hsome
      rw [show sumW sv d c (a :: rest) acc =
        sumW sv d c rest (acc + (1 - paff sv c a) * g) from by
          simp [sumW, get_s_valid sv c a hc ha, hg]]
      rw [ih _ (fun a2 ha2 => hl a2 (List.mem_cons_of_mem _ ha2))]
      simp [hg, add_assoc]

theorem get_W_num_ok (sv : Char → Char → ℚ) (d : PyDict ℚ) (c : Codon)
    (hc : c ∈ codonsAll) (hWF : ∀ a ∈ codonsAll, (dictGet d a).isSome) :
    get_W_num sv d c = .ok (rawW sv d c) := by
  by_cases hata : c = cATA
  · subst hata
    rw [show get_W_num sv d cATA =
      (get_s sv cATA cCAT).map (fun s => (1 - s) * 1) from by
        simp [get_W_num]]
    rw [get_s_valid sv cATA cCAT (by decide) (by decide)]
    rw [show rawW sv d cATA = (1 - paff sv cATA cCAT) * 1 from by
      simp [rawW]]
    rfl
  · rw [show get_W_num sv d c = sumW sv d c (anticodonsT c) 0 from by
      simp [get_W_num, hata, anticodons_valid c hc]]
    rw [sumW_eval sv d c hc (anticodonsT c) 0
      (fun a ha => ⟨ha, hWF a (anticodonsT_sub c hc a ha)⟩)]
    rw [show rawW sv d c = ((anticodonsT c).map
      (fun a => (1 - paff sv c a) * (dictGet d a).getD 0)).sum from by
        simp [rawW, hata]]
    rw [zero_add]

/-- The 60 codons that receive a W entry (all 64 minus methionine and the
three stop codons), in iteration order. -/
def senseOrder : List Codon :=
  codonsAll.filter (fun c => !decide (c ∈ [cATG, cTAA, cTAG, cTGA]))

theorem buildW_eval (sv : Char → Char → ℚ) (d : PyDict ℚ)
    (hWF : ∀ a ∈ codonsAll, (dictGet d a).isSome) (l : List Codon)
    (hl : ∀ c ∈ l, c ∈ codonsAll) :
    buildW sv d l = .ok ((l.filter
      (fun c => !decide (c ∈ [cATG, cTAA, cTAG, cTGA]))).map
      (fun c => (c, rawW sv d c))) := by
  induction l with
  | nil => rfl
  | cons c rest ih =>
      have hc := hl c (List.mem_cons_self _ _)
      have ih2 := ih (fun c2 hc2 => hl c2 (List.mem_cons_of_mem _ hc2))
      by_cases hexc : c ∈ [cATG, cTAA, cTAG, cTGA]
      · rw [show buildW sv d (c :: rest) = buildW sv d rest from by
          simp [buildW, hexc]]
        rw [ih2, List.filter_cons, if_neg (by simp [hexc])]
      · rw [show buildW sv d (c :: rest) = (match get_W_num sv d c with
          | .error e => .error e
          | .ok w => (buildW sv d rest).map (fun l2 => (c, w) :: l2)) from by
            simp [buildW, hexc]]
        rw [get_W_num_ok sv d c hc hWF, ih2]
        rw [List.filter_cons, if_pos (by simp [hexc]), List.map_cons]
        rfl

theorem buildW_all (sv : Char → Char → ℚ) (d : PyDict ℚ)
    (hWF : ∀ a ∈ codonsAll, (dictGet d a).isSome) :
    buildW sv d codonsAll = .ok (senseOrder.map (fun c => (c, rawW sv d c))) :=
  buildW_eval sv d hWF codonsAll (fun _ hc => hc)

theorem init_le_foldl (xs : List ℚ) (x : ℚ) : x ≤ xs.foldl max x := by
  induction xs generalizing x with
  | nil => exact le_refl x
  | cons y ys ih => exact le_trans (le_max_left x y) (ih (max x y))

theorem mem_le_foldl (xs : List ℚ) (x a : ℚ) (h : a ∈ xs) :
    a ≤ xs.foldl max x := by
  induction xs generalizing x with
  | nil => simp at h
  | cons y ys ih =>
      rw [List.foldl_cons]
      rcases List.mem_cons.mp h with h2 | h2
      · rw [h2]
        exact le_trans (le_max_right x y) (init_le_foldl ys (max x y))
      · exact ih (max x y) h2

theorem foldl_max_mem (xs : List ℚ) (x : ℚ) :
    xs.foldl max x = x ∨ xs.foldl max x ∈ xs := by
  induction xs generalizing x with
  | nil => exact Or.inl rfl
  | cons y ys ih =>
      rw [List.foldl_cons]
      rcases ih (max x y) with h2 | h2
      · rcases max_choice x y with h3 | h3
        · exact Or.inl (by rw [h2, h3])
        · refine Or.inr ?_
          rw [h2, h3]
          exact List.mem_cons_self _ _
      · exact Or.inr (List.mem_cons_of_mem _ h2)

theorem pyMax_spec (l : List ℚ) (h : l ≠ []) :
    ∃ m, pyMax l = .ok m ∧ (∀ a ∈ l, a ≤ m) ∧ m ∈ l := by
  cases l with
  | nil => exact absurd rfl h
  | cons x xs =>
      refine ⟨xs.foldl max x, rfl, ?_, ?_⟩
      · intro a ha
        rcases List.mem_cons.mp ha with h2 | h2
        · exact h2 ▸ init_le_foldl xs x
        · exact mem_le_foldl xs x a h2
      · rcases foldl_max_mem xs x with h2 | h2
        · rw [h2]
          exact List.mem_cons_self _ _
        · exact List.mem_cons_of_mem _ h2

theorem gcn_nonneg (d : PyDict ℚ) (hd : ∀ p ∈ d, 0 ≤ p.2) (a : Codon) :
    0 ≤ (dictGet d a).getD 0 := by
  cases hdg : dictGet d a with
  | none => exact le_refl 0
  | some g => exact hd (a, g) (mem_of_dictGet d a g hdg)

theorem rawW_nonneg (sv : Char → Char → ℚ) (d : PyDict ℚ) (c : Codon)
    (hs : ∀ x y, sv x y ≤ 1) (hd : ∀ p ∈ d, 0 ≤ p.2) :
    0 ≤ rawW sv d c := by
  unfold rawW
  by_cases hata : c = cATA
  · rw [if_pos hata]
    exact mul_nonneg (sub_nonneg.mpr (hs _ _)) zero_le_one
  · rw [if_neg hata]
    refine List.sum_nonneg ?_
    intro v hv
    obtain ⟨a, _, rfl⟩ := List.mem_map.mp hv
    exact mul_nonneg (sub_nonneg.mpr (hs _ _)) (gcn_nonneg d hd a)

/-- Claim C5: `raw_weight` (i.e. `get_W`) returns no weight (`None`) for
'atg' and the stop codons; for 'ata' it returns
`(1 - pairing_affinity('ata','cat')) * 1` — the lysidine lookup `sv 'a' 'l'`
with a token count of 1 — independently of the stored tGCN table; and for
every other sense codon it returns the sum over its 4 pairing anticodons of
`(1 - pairing_affinity(codon, anticodon)) * tGCN[anticodon]`. -/
theorem claim_C5 (sv : Char → Char → ℚ) (d : PyDict ℚ)
    (hWF : ∀ a ∈ codonsAll, (dictGet d a).isSome) :
    (∀ c ∈ [cATG, cTAA, cTGA, cTAG], get_W sv d c = .ok none)
    ∧ (∀ d2 : PyDict ℚ, get_W sv d2 cATA = get_W sv d cATA)
    ∧ get_W sv d cATA = .ok (some ((1 - sv 'a' 'l') * 1))
    ∧ (∀ c ∈ codonsAll, c ∉ [cATG, cTAA, cTGA, cTAG, cATA] →
        get_W sv d c = .ok (some (((anticodonsT c).map
          (fun a => (1 - paff sv c a) * (dictGet d a).getD 0)).sum))
        ∧ (anticodonsT c).length = 4
        ∧ ∀ a ∈ anticodonsT c, get_s sv c a = .ok (paff sv c a)) := by
  refine ⟨?_, fun d2 => rfl, rfl, ?_⟩
  · intro c hc
    fin_cases hc <;> rfl
  · intro c hc hc5
    have hne4 : c ∉ [cATG, cTGA, cTAA, cTAG] := by
      intro h
      refine hc5 ?_
      fin_cases h <;> decide
    have hata : c ≠ cATA := fun h => hc5 (by rw [h]; decide)
    constructor
    · rw [show get_W sv d c = (get_W_num sv d c).map some from by
        simp [get_W, hne4]]
      rw [get_W_num_ok sv d c hc hWF]
      rw [show rawW sv d c = ((anticodonsT c).map
        (fun a => (1 - paff sv c a) * (dictGet d a).getD 0)).sum from by
          simp [rawW, hata]]
      rfl
    · exact ⟨rfl, fun a ha => get_s_valid sv c a hc ha⟩

/-- Witness for C5 at a concrete table: with the all-zero affinity table and
the tGCN table built from empty counts, 'atg' gets no weight and 'ata' gets
the token weight `(1 - s) * 1`. -/
theorem claim_C5_witness :
    get_W svZero (set_tGCN []) cATG = .ok none
    ∧ get_W svZero (set_tGCN []) cATA =
        .ok (some ((1 - svZero 'a' 'l') * 1)) := by
  have h := claim_C5 svZero (set_tGCN []) (by decide)
  exact ⟨h.1 cATG (by decide), h.2.2.1⟩

theorem dictGet_map_graph {V : Type} (l : List Codon) (f : Codon → V)
    (c : Codon) (hc : c ∈ l) :
    dictGet (l.map (fun c2 => (c2, f c2))) c = some (f c) := by
  induction l with
  | nil => simp at hc
  | cons c0 rest ih =>
      rw [List.map_cons, dictGet_cons]
      by_cases h : c0 = c
      · rw [if_pos h, h]
      · rw [if_neg h]
        refine ih ?_
        rcases List.mem_cons.mp hc with h2 | h2
        · exact absurd h2.symm h
        · exact h2

theorem geo_mean_ok_of_ne_nil (xs : List ℝ) (h : xs ≠ []) :
    ∃ g, geo_mean xs = .ok g := by
  cases xs with
  | nil => exact absurd rfl h
  | cons x rest => exact ⟨_, rfl⟩

theorem set_w_mid (sv : Char → Char → ℚ) (d : PyDict ℚ) (Wl : PyDict ℚ)
    (m : ℚ) (h1 : buildW sv d codonsAll = .ok Wl)
    (h2 : pyMax (Wl.map (fun p => p.2)) = .ok m) (h3 : ¬ m = 0) :
    set_w sv d =
      (if 0 < ((Wl.map (fun p => (p.1, p.2 / m))).filter
          (fun p => decide (p.2 = 0))).length then
        match geo_mean (((Wl.map (fun p => (p.1, p.2 / m))).filter
            (fun p => !decide (p.2 = 0))).map
            (fun p => ((p.2 : ℚ) : ℝ))) with
        | .error e => .error e
        | .ok gm => .ok ((Wl.map (fun p => (p.1, p.2 / m))).map
            (fun p => (p.1, if p.2 = 0 then gm else ((p.2 : ℚ) : ℝ))))
      else .ok ((Wl.map (fun p => (p.1, p.2 / m))).map
        (fun p => (p.1, ((p.2 : ℚ) : ℝ))))) := by
  simp only [set_w, h1, h2, h3, if_false]

/-- The full characterization of a successful `set_w_dict` run: under a
well-formed tGCN table with nonnegative counts, affinities at most 1, and at
least one nonzero raw weight, `set_w` succeeds; the resulting table is keyed
by the 60 weighted codons in order; each codon with nonzero raw weight maps
to `W/max`, and each codon with zero raw weight maps to the geometric mean
of the strictly positive normalized weights. -/
theorem set_w_spec (sv : Char → Char → ℚ) (d : PyDict ℚ)
    (hs : ∀ x y, sv x y ≤ 1)
    (hd : ∀ p ∈ d, 0 ≤ p.2)
    (hWF : ∀ a ∈ codonsAll, (dictGet d a).isSome)
    (hnz : ∃ c ∈ senseOrder, rawW sv d c ≠ 0) :
    ∃ m, pyMax (senseOrder.map (fun c => rawW sv d c)) = .ok m ∧ 0 < m ∧
    ∃ wl, set_w sv d = .ok wl ∧ wl.map Prod.fst = senseOrder ∧
    ∀ c ∈ senseOrder,
      (rawW sv d c ≠ 0 →
        dictGet wl c = some ((rawW sv d c / m : ℚ) : ℝ))
      ∧ (rawW sv d c = 0 → ∃ g,
          geo_mean ((senseOrder.filter
              (fun c2 => decide (0 < rawW sv d c2))).map
            (fun c2 => ((rawW sv d c2 / m : ℚ) : ℝ))) = .ok g
          ∧ dictGet wl c = some g) := by
  have hWl := buildW_all sv d hWF
  have hne : senseOrder.map (fun c => rawW sv d c) ≠ [] := by
    intro h
    exact absurd (List.map_eq_nil_iff.mp h) (by decide)
  obtain ⟨m, hm, hmub, hmmem⟩ := pyMax_spec _ hne
  have h0le : ∀ c ∈ senseOrder, 0 ≤ rawW sv d c :=
    fun c _ => rawW_nonneg sv d c hs hd
  obtain ⟨c1, hc1, hc1nz⟩ := hnz
  have hmpos : 0 < m :=
    lt_of_lt_of_le (lt_of_le_of_ne (h0le c1 hc1) (Ne.symm hc1nz))
      (hmub _ (List.mem_map.mpr ⟨c1, hc1, rfl⟩))
  have hmne : ¬ m = 0 := ne_of_gt hmpos
  have hmap2 : (senseOrder.map (fun c => (c, rawW sv d c))).map
      (fun p => p.2) = senseOrder.map (fun c => rawW sv d c) := by
    rw [List.map_map]
    rfl
  have hmid := set_w_mid sv d _ m hWl (by rw [hmap2]; exact hm) hmne
  have hwq : (senseOrder.map (fun c => (c, rawW sv d c))).map
      (fun p => (p.1, p.2 / m)) =
      senseOrder.map (fun c => (c, rawW sv d c / m)) := by
    rw [List.map_map]
    rfl
  rw [hwq] at hmid
  refine ⟨m, hm, hmpos, ?_⟩
  have hdiv0 : ∀ c, rawW sv d c / m = 0 ↔ rawW sv d c = 0 := by
    intro c
    rw [div_eq_zero_iff]
    exact or_iff_left hmne
  by_cases hez : ∃ c0 ∈ senseOrder, rawW sv d c0 = 0
  · -- some zero entries: the geometric-mean substitution branch is taken
    obtain ⟨c0, hc0, hc0z⟩ := hez
    have hflen : 0 < ((senseOrder.map (fun c => (c, rawW sv d c / m))).filter
        (fun p => decide (p.2 = 0))).length := by
      refine List.length_pos.mpr (List.ne_nil_of_mem (a := (c0, rawW sv d c0 / m)) ?_)
      refine List.mem_filter.mpr ⟨List.mem_map.mpr ⟨c0, hc0, rfl⟩, ?_⟩
      simp [hc0z, zero_div]
    rw [if_pos hflen] at hmid
    -- the nonzero filter equals the strictly-positive filter over senseOrder
    have hfil : (senseOrder.map (fun c => (c, rawW sv d c / m))).filter
        (fun p => !decide (p.2 = 0)) =
        (senseOrder.filter (fun c2 => decide (0 < rawW sv d c2))).map
          (fun c => (c, rawW sv d c / m)) := by
      rw [List.filter_map]
      congr 1
      refine List.filter_congr ?_
      intro c hc
      show (!decide (rawW sv d c / m = 0)) = decide (0 < rawW sv d c)
      rcases lt_or_eq_of_le (h0le c hc) with hlt | heq
      · simp [hdiv0, ne_of_gt hlt, hlt]
      · simp [hdiv0, ← heq, lt_irrefl]
    have hglist : ((senseOrder.filter (fun c2 => decide (0 < rawW sv d c2))).map
        (fun c => (c, rawW sv d c / m))).map (fun p => ((p.2 : ℚ) : ℝ)) =
        (senseOrder.filter (fun c2 => decide (0 < rawW sv d c2))).map
          (fun c2 => ((rawW sv d c2 / m : ℚ) : ℝ)) := by
      rw [List.map_map]
      rfl
    have hgne : (senseOrder.filter (fun c2 => decide (0 < rawW sv d c2))).map
        (fun c2 => ((rawW sv d c2 / m : ℚ) : ℝ)) ≠ [] := by
      obtain ⟨cm, hcm, hcmval⟩ := List.mem_map.mp hmmem
      have hcmpos : 0 < rawW sv d cm := hcmval ▸ hmpos
      refine fun h => ?_
      have : cm ∈ senseOrder.filter (fun c2 => decide (0 < rawW sv d c2)) :=
        List.mem_filter.mpr ⟨hcm, by simp [hcmpos]⟩
      rw [List.map_eq_nil_iff.mp h] at this
      simp at this
    obtain ⟨g, hg⟩ := geo_mean_ok_of_ne_nil _ hgne
    rw [hfil, hglist, hg] at hmid
    refine ⟨_, hmid, ?_, ?_⟩
    · rw [List.map_map, List.map_map]
      rw [show (Prod.fst ∘ fun p : Codon × ℚ =>
        (p.1, if p.2 = 0 then g else ((p.2 : ℚ) : ℝ))) ∘
        (fun c => (c, rawW sv d c / m)) = id from rfl]
      exact List.map_id _
    · intro c hc
      have hlook : dictGet ((senseOrder.map (fun c => (c, rawW sv d c / m))).map
          (fun p => (p.1, if p.2 = 0 then g else ((p.2 : ℚ) : ℝ)))) c =
          some (if rawW sv d c / m = 0 then g
            else ((rawW sv d c / m : ℚ) : ℝ)) := by
        rw [List.map_map]
        exact dictGet_map_graph senseOrder
          (fun c => if rawW sv d c / m = 0 then g
            else ((rawW sv d c / m : ℚ) : ℝ)) c hc
      constructor
      · intro hnz2
        rw [hlook, if_neg (fun h => hnz2 ((hdiv0 c).mp h))]
      · intro hz
        exact ⟨g, hg, by rw [hlook, if_pos ((hdiv0 c).mpr hz)]⟩
  · -- no zero entries: no substitution happens
    push_neg at hez
    have hflen : ¬ 0 < ((senseOrder.map (fun c => (c, rawW sv d c / m))).filter
        (fun p => decide (p.2 = 0))).length := by
      rw [show (senseOrder.map (fun c => (c, rawW sv d c / m))).filter
          (fun p => decide (p.2 = 0)) = [] from ?_]
      · simp
      · rw [List.filter_eq_nil_iff]
        intro p hp
        obtain ⟨c, hc, rfl⟩ := List.mem_map.mp hp
        simp [hdiv0, hez c hc]
    rw [if_neg hflen] at hmid
    refine ⟨_, hmid, ?_, ?_⟩
    · rw [List.map_map, List.map_map]
      rw [show (Prod.fst ∘ fun p : Codon × ℚ => (p.1, ((p.2 : ℚ) : ℝ))) ∘
        (fun c => (c, rawW sv d c / m)) = id from rfl]
      exact List.map_id _
    · intro c hc
      constructor
      · intro _
        rw [List.map_map]
        exact dictGet_map_graph senseOrder
          (fun c => ((rawW sv d c / m : ℚ) : ℝ)) c hc
      · intro hz
        exact absurd hz (hez c hc)

theorem fillZeros_val_mem (l : List Codon) (d : PyDict ℚ) (p : Codon × ℚ)
    (h : p ∈ fillZeros l d) : p ∈ d ∨ p.2 = 0 := by
  induction l generalizing d with
  | nil => exact Or.inl h
  | cons t rest ih =>
      rw [fillZeros_step] at h
      rcases ih _ h with h2 | h2
      · by_cases ht : (dictGet d t).isSome
        · rw [if_pos ht] at h2
          exact Or.inl h2
        · rw [if_neg ht] at h2
          rcases mem_dictSet _ _ _ _ h2 with h3 | h3
          · exact Or.inr (by rw [h3])
          · exact Or.inl h3
      · exact Or.inr h2

theorem normFold_val (l : List (Codon × ℚ)) (d : PyDict ℚ) (p : Codon × ℚ)
    (h : p ∈ normFold l d) : p ∈ d ∨ ∃ q ∈ l, p.2 = q.2 := by
  induction l generalizing d with
  | nil => exact Or.inl h
  | cons q rest ih =>
      rcases ih _ h with h2 | h2
      · rcases mem_dictSet _ _ _ _ h2 with h3 | h3
        · exact Or.inr ⟨q, List.mem_cons_self _ _, by rw [h3]⟩
        · exact Or.inl h3
      · obtain ⟨r, hr, hr2⟩ := h2
        exact Or.inr ⟨r, List.mem_cons_of_mem _ hr, hr2⟩

theorem set_tGCN_val (counts : PyDict ℚ) (p : Codon × ℚ)
    (h : p ∈ set_tGCN counts) : p.2 = 0 ∨ ∃ q ∈ counts, p.2 = q.2 := by
  rw [set_tGCN_eq] at h
  rcases fillZeros_val_mem codonsAll _ p h with h2 | h2
  · rcases normFold_val counts [] p h2 with h3 | h3
    · simp at h3
    · exact Or.inr h3
  · exact Or.inl h2

theorem get_W_sense (sv : Char → Char → ℚ) (d : PyDict ℚ) (c : Codon)
    (hc : c ∈ senseOrder) (hWF : ∀ a ∈ codonsAll, (dictGet d a).isSome) :
    get_W sv d c = .ok (some (rawW sv d c)) := by
  obtain ⟨hcall, hcb⟩ := List.mem_filter.mp hc
  have hprop : ¬ (c = cATG ∨ c = cTAA ∨ c = cTAG ∨ c = cTGA) := by
    simpa using hcb
  have hne : c ∉ [cATG, cTGA, cTAA, cTAG] := by
    simp only [List.mem_cons, List.not_mem_nil, or_false]
    tauto
  rw [show get_W sv d c = (get_W_num sv d c).map some from by
    simp [get_W, hne]]
  rw [get_W_num_ok sv d c hcall hWF]
  rfl

/-- Claim C4: for every well-formed tGCN table (counts nonnegative,
affinities in [0,1]) in which not all raw weights are zero,
`set_w_dict` computes each codon's normalized weight as its raw weight
divided by the maximum raw weight over the weighted sense codons, and then
replaces every entry equal to exactly 0 with the geometric mean of the
strictly positive normalized weights. -/
theorem claim_C4 (sv : Char → Char → ℚ) (d : PyDict ℚ)
    (hs : ∀ x y, 0 ≤ sv x y ∧ sv x y ≤ 1)
    (hd : ∀ p ∈ d, 0 ≤ p.2)
    (hWF : ∀ a ∈ codonsAll, (dictGet d a).isSome)
    (hnz : ∃ c ∈ senseOrder, rawW sv d c ≠ 0) :
    (∀ c ∈ senseOrder, get_W sv d c = .ok (some (rawW sv d c)))
    ∧ ∃ m, pyMax (senseOrder.map (fun c => rawW sv d c)) = .ok m ∧ 0 < m ∧
      ∃ wl, set_w sv d = .ok wl ∧ wl.map Prod.fst = senseOrder ∧
      ∀ c ∈ senseOrder,
        (rawW sv d c ≠ 0 →
          dictGet wl c = some ((rawW sv d c / m : ℚ) : ℝ))
        ∧ (rawW sv d c = 0 → ∃ g,
            geo_mean ((senseOrder.filter
                (fun c2 => decide (0 < rawW sv d c2))).map
              (fun c2 => ((rawW sv d c2 / m : ℚ) : ℝ))) = .ok g
            ∧ dictGet wl c = some g) :=
  ⟨fun c hc => get_W_sense sv d c hc hWF,
    set_w_spec sv d (fun x y => (hs x y).2) hd hWF hnz⟩

/-- Witness for C4 at a concrete table: the all-zero affinity table and the
tGCN table from {'aaa': 1}; the hypotheses hold and the theorem applies. -/
theorem claim_C4_witness :
    get_W svZero (set_tGCN [((['a','a','a'] : Codon), (1 : ℚ))]) cATA =
      .ok (some (rawW svZero
        (set_tGCN [((['a','a','a'] : Codon), (1 : ℚ))]) cATA)) :=
  (claim_C4 svZero (set_tGCN [((['a','a','a'] : Codon), (1 : ℚ))])
    (fun x y => ⟨le_refl 0, zero_le_one⟩)
    (fun p hp => by
      rcases set_tGCN_val _ p hp with h | h
      · rw [h]
      · obtain ⟨q, hq, hq2⟩ := h
        rw [List.mem_singleton] at hq
        rw [hq2, hq]
        norm_num)
    (by decide)
    ⟨cATA, by decide, by norm_num [rawW, paff, svZero]⟩).1 cATA (by decide)

theorem TAI.get_tai_eq (t : TAI) (seq : List Char) :
    TAI.get_tai t seq =
      (match lookupW t.w_dict ((get_sequence_codons seq).map
          (fun c => c.map pyLower)) with
      | .error e => .error e
      | .ok ws => geo_mean ws) := rfl

theorem get_tai_empty (t : TAI) (seq : List Char)
    (h : get_sequence_codons seq = []) :
    TAI.get_tai t seq = .error .typeError := by
  rw [TAI.get_tai_eq, h]
  rfl

/-- Claim C9 (amended): on a sequence whose filtered codon list is empty,
`get_tai` fails with the `TypeError` coming from reducing an empty list in
`geo_mean`; no `EmptySequenceError` exists in the code. -/
theorem claim_C9 (t : TAI) (seq : List Char)
    (h : get_sequence_codons seq = []) :
    TAI.get_tai t seq = .error .typeError
    ∧ PyErr.typeError ≠ PyErr.emptySequenceError :=
  ⟨get_tai_empty t seq h, by decide⟩

/-- Witness for C9 (amended) at the concrete sequence "atg" and an arbitrary
calculator state. -/
theorem claim_C9_witness :
    get_sequence_codons (['a','t','g'] : List Char) = []
    ∧ (TAI.get_tai ⟨[], []⟩ ['a','t','g'] = .error .typeError
      ∧ PyErr.typeError ≠ PyErr.emptySequenceError) :=
  ⟨rfl, claim_C9 ⟨[], []⟩ ['a','t','g'] rfl⟩

/-- Counterexample to C9 as stated: on "atgtaa" (a start codon followed by a
stop codon, so the filtered codon list is empty) `get_tai` raises the
`TypeError` from `reduce` over an empty list, which is an unrelated error,
not an explicit `EmptySequenceError`. -/
theorem claim_C9_cex :
    TAI.get_tai ⟨[], []⟩ ['a','t','g','t','a','a'] = .error .typeError
    ∧ PyErr.typeError ≠ PyErr.emptySequenceError :=
  ⟨get_tai_empty ⟨[], []⟩ ['a','t','g','t','a','a'] rfl, by decide⟩

/-- The affinity table that makes the lysidine pairing maximally penalized
(s = 1) and every other pairing perfect (s = 0): under it the 'ata' token
weight is 0, so an all-zero tGCN table has all raw weights 0. -/
def svAL : Char → Char → ℚ := fun x y => if x = 'a' ∧ y = 'l' then 1 else 0

/-- Concrete counts table {'aaa': 1}. -/
def dAAA1 : PyDict ℚ := [(['a','a','a'], 1)]

/-- Shorthand for the codon written as a character list. -/
def cTTT : Codon := ['t','t','t']

theorem update_ok (sv : Char → Char → ℚ) (t : TAI) (counts : PyDict ℚ)
    (w : PyDict ℝ) (hw : set_w sv (set_tGCN counts) = .ok w) :
    TAI.update sv t counts = (⟨set_tGCN counts, w⟩, none) := by
  rw [TAI.update_eq, hw, applyW_ok]

theorem update_fail (sv : Char → Char → ℚ) (t : TAI) (counts : PyDict ℚ)
    (e : PyErr) (hw : set_w sv (set_tGCN counts) = .error e) :
    TAI.update sv t counts = (⟨set_tGCN counts, t.w_dict⟩, some e) := by
  rw [TAI.update_eq, hw, applyW_err]

theorem set_w_err0 (sv : Char → Char → ℚ) (d : PyDict ℚ) (Wl : PyDict ℚ)
    (h1 : buildW sv d codonsAll = .ok Wl)
    (h2 : pyMax (Wl.map (fun p => p.2)) = .ok 0) :
    set_w sv d = .error .zeroDivisionError := by
  simp [set_w, h1, h2]

theorem set_tGCN_nil_zero (a : Codon) :
    (dictGet (set_tGCN ([] : PyDict ℚ)) a).getD 0 = 0 := by
  cases h : dictGet (set_tGCN ([] : PyDict ℚ)) a with
  | none => rfl
  | some v =>
      rcases set_tGCN_val [] (a, v) (mem_of_dictGet _ _ _ h) with h2 | h2
      · simpa using h2
      · obtain ⟨q, hq, _⟩ := h2
        simp at hq

theorem rawW_zero_dict (sv : Char → Char → ℚ) (d : PyDict ℚ)
    (hzero : ∀ a : Codon, (dictGet d a).getD 0 = 0)
    (hata : sv 'a' 'l' = 1) (c : Codon) : rawW sv d c = 0 := by
  unfold rawW
  by_cases h : c = cATA
  · rw [if_pos h]
    rw [show paff sv cATA cCAT = sv 'a' 'l' from rfl, hata]
    norm_num
  · rw [if_neg h]
    refine List.sum_eq_zero ?_
    intro v hv
    obtain ⟨a, _, rfl⟩ := List.mem_map.mp hv
    rw [hzero a, mul_zero]

theorem pyMax_const_map (l : List Codon) (h : l ≠ []) (z : ℚ) :
    pyMax (l.map (fun _ => z)) = .ok z := by
  obtain ⟨m, hm, _, hmem⟩ := pyMax_spec (l.map (fun _ => z))
    (fun h2 => h (List.map_eq_nil_iff.mp h2))
  obtain ⟨c, _, hcz⟩ := List.mem_map.mp hmem
  rw [hm, hcz]

theorem set_w_allzero (sv : Char → Char → ℚ) (d : PyDict ℚ)
    (hWF : ∀ a ∈ codonsAll, (dictGet d a).isSome)
    (hzero : ∀ a : Codon, (dictGet d a).getD 0 = 0)
    (hata : sv 'a' 'l' = 1) :
    set_w sv d = .error .zeroDivisionError := by
  refine set_w_err0 sv d _ (buildW_all sv d hWF) ?_
  rw [List.map_map]
  rw [show ((fun p : Codon × ℚ => p.2) ∘ fun c => (c, rawW sv d c)) =
    fun c => rawW sv d c from rfl]
  rw [List.map_congr_left
    (fun c _ => rawW_zero_dict sv d hzero hata c)]
  exact pyMax_const_map senseOrder (by decide) 0

theorem sum_single_bound (l : List Codon) (hnd : l.Nodup) (f : Codon → ℚ)
    (k0 : Codon) (B : ℚ) (hB : 0 ≤ B) (hf : ∀ a, a ≠ k0 → f a = 0)
    (hfk : f k0 ≤ B) : (l.map f).sum ≤ B := by
  induction l with
  | nil => simpa using hB
  | cons a rest ih =>
      rw [List.map_cons, List.sum_cons]
      have hnd2 := List.nodup_cons.mp hnd
      by_cases h : a = k0
      · subst h
        have hz : (rest.map f).sum = 0 := by
          refine List.sum_eq_zero ?_
          intro v hv
          obtain ⟨b, hb, rfl⟩ := List.mem_map.mp hv
          exact hf b (fun hbk => hnd2.1 (hbk ▸ hb))
        rw [hz, add_zero]
        exact hfk
      · rw [hf a h, zero_add]
        exact ih hnd2.2

theorem rawW_ata (sv : Char → Char → ℚ) (d : PyDict ℚ) :
    rawW sv d cATA = (1 - sv 'a' 'l') * 1 := by
  unfold rawW
  rw [if_pos rfl]
  rw [show paff sv cATA cCAT = sv 'a' 'l' from rfl]

theorem rawW_single (sv : Char → Char → ℚ) (hs0 : ∀ x y, 0 ≤ sv x y)
    (d : PyDict ℚ) (k0 : Codon) (B : ℚ) (hB : 1 ≤ B)
    (hvals : ∀ a : Codon, a ≠ k0 → (dictGet d a).getD 0 = 0)
    (hk0 : (dictGet d k0).getD 0 ≤ B)
    (hk0nn : 0 ≤ (dictGet d k0).getD 0) (c : Codon) :
    rawW sv d c ≤ B := by
  unfold rawW
  by_cases h : c = cATA
  · rw [if_pos h, mul_one]
    rw [show paff sv cATA cCAT = sv 'a' 'l' from rfl]
    have := hs0 'a' 'l'
    linarith
  · rw [if_neg h]
    refine sum_single_bound (anticodonsT c) (anticodonsT_nodup c) _ k0 B
      (le_trans zero_le_one hB) ?_ ?_
    · intro a ha
      rw [hvals a ha, mul_zero]
    · refine le_trans (mul_le_of_le_one_left hk0nn ?_) hk0
      have := hs0 (c.getD 2 ' ')
      unfold paff
      linarith [hs0 (c.getD 2 ' ')
        (if c = cATA ∧ k0 = cCAT then 'l'
         else if k0.getD 0 ' ' = 'a' then 'i' else k0.getD 0 ' ')]

theorem normFold_kv (l : List (Codon × ℚ)) (d : PyDict ℚ) (p : Codon × ℚ)
    (h : p ∈ normFold l d) :
    p ∈ d ∨ ∃ q ∈ l, p.1 = normSeq q.1 ∧ p.2 = q.2 := by
  induction l generalizing d with
  | nil => exact Or.inl h
  | cons q rest ih =>
      rcases ih _ h with h2 | h2
      · rcases mem_dictSet _ _ _ _ h2 with h3 | h3
        · exact Or.inr ⟨q, List.mem_cons_self _ _, by rw [h3], by rw [h3]⟩
        · exact Or.inl h3
      · obtain ⟨r, hr, hr2, hr3⟩ := h2
        exact Or.inr ⟨r, List.mem_cons_of_mem _ hr, hr2, hr3⟩

theorem set_tGCN_kv (counts : PyDict ℚ) (p : Codon × ℚ)
    (h : p ∈ set_tGCN counts) :
    p.2 = 0 ∨ ∃ q ∈ counts, p.1 = normSeq q.1 ∧ p.2 = q.2 := by
  rw [set_tGCN_eq] at h
  rcases fillZeros_val_mem codonsAll _ p h with h2 | h2
  · rcases normFold_kv counts [] p h2 with h3 | h3
    · simp at h3
    · exact Or.inr h3
  · exact Or.inl h2

theorem d1_vals (a : Codon) (ha : a ≠ ['a','a','a']) :
    (dictGet (set_tGCN dAAA1) a).getD 0 = 0 := by
  cases h : dictGet (set_tGCN dAAA1) a with
  | none => rfl
  | some v =>
      rcases set_tGCN_kv dAAA1 (a, v) (mem_of_dictGet _ _ _ h) with h2 | h2
      · simpa using h2
      · obtain ⟨q, hq, hqk, _⟩ := h2
        simp only [dAAA1, List.mem_singleton] at hq
        rw [hq] at hqk
        exact absurd (by simpa using hqk) ha

theorem d1_nonneg (p : Codon × ℚ) (hp : p ∈ set_tGCN dAAA1) : 0 ≤ p.2 := by
  rcases set_tGCN_val dAAA1 p hp with h | h
  · rw [h]
  · obtain ⟨q, hq, hq2⟩ := h
    simp only [dAAA1, List.mem_singleton] at hq
    rw [hq2, hq]
    norm_num

theorem antic_ttt : anticodonsT cTTT =
    [['t','a','a'], ['c','a','a'], ['a','a','a'], ['g','a','a']] := rfl

theorem d1_taa : dictGet (set_tGCN dAAA1) ['t','a','a'] = some 0 := by decide

theorem d1_caa : dictGet (set_tGCN dAAA1) ['c','a','a'] = some 0 := by decide

theorem d1_gaa : dictGet (set_tGCN dAAA1) ['g','a','a'] = some 0 := by decide

theorem d1_aaa : dictGet (set_tGCN dAAA1) ['a','a','a'] = some 1 := by decide

theorem raw_ttt_eval (sv : Char → Char → ℚ) (d : PyDict ℚ) :
    rawW sv d cTTT =
      (1 - paff sv cTTT ['t','a','a']) * (dictGet d ['t','a','a']).getD 0
      + ((1 - paff sv cTTT ['c','a','a']) * (dictGet d ['c','a','a']).getD 0
      + ((1 - paff sv cTTT ['a','a','a']) * (dictGet d ['a','a','a']).getD 0
      + ((1 - paff sv cTTT ['g','a','a']) * (dictGet d ['g','a','a']).getD 0
        + 0))) := by
  unfold rawW
  rw [if_neg (by decide), antic_ttt]
  rw [List.map_cons, List.map_cons, List.map_cons, List.map_cons,
    List.map_nil, List.sum_cons, List.sum_cons, List.sum_cons,
    List.sum_cons, List.sum_nil]

theorem raw_ttt_svAL : rawW svAL (set_tGCN dAAA1) cTTT = 1 := by
  rw [raw_ttt_eval, d1_taa, d1_caa, d1_aaa, d1_gaa]
  rw [show paff svAL cTTT ['t','a','a'] = 0 from rfl,
    show paff svAL cTTT ['c','a','a'] = 0 from rfl,
    show paff svAL cTTT ['a','a','a'] = 0 from rfl,
    show paff svAL cTTT ['g','a','a'] = 0 from rfl]
  simp only [Option.getD_some]
  norm_num

theorem svAL_le_one : ∀ x y, svAL x y ≤ 1 := by
  intro x y
  unfold svAL
  split <;> norm_num

theorem svAL_nonneg : ∀ x y, 0 ≤ svAL x y := by
  intro x y
  unfold svAL
  split <;> norm_num

/-- Claim C3 (amended): `update` is not atomic — when it fails, the weight
table is unchanged from before the call, but the tGCN table has already been
replaced with the normalized input table. -/
theorem claim_C3 (sv : Char → Char → ℚ) (t : TAI) (counts : PyDict ℚ)
    (e : PyErr) (h : (TAI.update sv t counts).2 = some e) :
    (TAI.update sv t counts).1.w_dict = t.w_dict
    ∧ (TAI.update sv t counts).1.tGCN_dict = set_tGCN counts := by
  obtain ⟨r, hr⟩ : ∃ r, set_w sv (set_tGCN counts) = r := ⟨_, rfl⟩
  rw [TAI.update_eq, hr] at h ⊢
  cases r with
  | ok w =>
      rw [applyW_ok] at h
      simp at h
  | error e2 =>
      rw [applyW_err] at h ⊢
      exact ⟨by simp, by simp⟩

/-- Counterexample to C3 as stated: a calculator built from {'aaa': 1} with
the `svAL` affinity table; `update({})` fails with a `ZeroDivisionError`
(all raw weights become 0), yet the tGCN table has been replaced — the
count of 'aaa' went from 1 to 0 during the failing call. -/
theorem claim_C3_cex :
    (TAI.construct svAL dAAA1).2 = none
    ∧ dictGet (TAI.construct svAL dAAA1).1.tGCN_dict ['a','a','a'] = some 1
    ∧ (TAI.update svAL (TAI.construct svAL dAAA1).1 []).2 =
        some .zeroDivisionError
    ∧ dictGet (TAI.update svAL (TAI.construct svAL dAAA1).1 []).1.tGCN_dict
        ['a','a','a'] = some 0 := by
  obtain ⟨m, hm, hmpos, wl, hwl, _⟩ := set_w_spec svAL (set_tGCN dAAA1)
    svAL_le_one d1_nonneg (by decide)
    ⟨cTTT, by decide, by rw [raw_ttt_svAL]; norm_num⟩
  have hcon := update_ok svAL ⟨[], []⟩ dAAA1 wl hwl
  have hupd := update_fail svAL (TAI.construct svAL dAAA1).1 [] .zeroDivisionError
    (set_w_allzero svAL (set_tGCN []) (by decide) set_tGCN_nil_zero (by decide))
  refine ⟨?_, ?_, ?_, ?_⟩
  · rw [TAI.construct_eq, hcon]
  · rw [TAI.construct_eq, hcon]
    show dictGet (set_tGCN dAAA1) ['a','a','a'] = some 1
    decide
  · rw [hupd]
  · rw [hupd]
    show dictGet (set_tGCN ([] : PyDict ℚ)) ['a','a','a'] = some 0
    decide

/-- Witness for C3 (amended) at the concrete failing update from the
counterexample state: after the failed `update({})`, `w` is untouched and
`tGCN` equals the normalized empty table. -/
theorem claim_C3_witness :
    (TAI.update svAL (TAI.construct svAL dAAA1).1 []).1.w_dict =
      (TAI.construct svAL dAAA1).1.w_dict
    ∧ (TAI.update svAL (TAI.construct svAL dAAA1).1 []).1.tGCN_dict =
      set_tGCN [] :=
  claim_C3 svAL (TAI.construct svAL dAAA1).1 [] .zeroDivisionError
    (by rw [update_fail svAL (TAI.construct svAL dAAA1).1 [] .zeroDivisionError
      (set_w_allzero svAL (set_tGCN []) (by decide) set_tGCN_nil_zero
        (by decide))])

theorem svZero_le_one : ∀ x y, svZero x y ≤ 1 := by
  intro x y
  norm_num [svZero]

theorem svZero_nonneg : ∀ x y, 0 ≤ svZero x y := fun _ _ => le_refl 0

theorem pyMax_exact (l : List ℚ) (hne : l ≠ []) (B : ℚ)
    (hub : ∀ x ∈ l, x ≤ B) (hmem : B ∈ l) : pyMax l = .ok B := by
  obtain ⟨m, hm, hub2, hmem2⟩ := pyMax_spec l hne
  rw [hm]
  exact congrArg Except.ok (le_antisymm (hub m hmem2) (hub2 B hmem))

theorem raw_ttt_svZero (d : PyDict ℚ) : rawW svZero d cTTT =
    (dictGet d ['t','a','a']).getD 0 + ((dictGet d ['c','a','a']).getD 0
    + ((dictGet d ['a','a','a']).getD 0
    + ((dictGet d ['g','a','a']).getD 0 + 0))) := by
  rw [raw_ttt_eval]
  rw [show paff svZero cTTT ['t','a','a'] = 0 from rfl,
    show paff svZero cTTT ['c','a','a'] = 0 from rfl,
    show paff svZero cTTT ['a','a','a'] = 0 from rfl,
    show paff svZero cTTT ['g','a','a'] = 0 from rfl]
  ring

theorem d1_getD_aaa : (dictGet (set_tGCN dAAA1) ['a','a','a']).getD 0 = 1 := by
  rw [d1_aaa]
  rfl

theorem raw_ttt_d1 : rawW svZero (set_tGCN dAAA1) cTTT = 1 := by
  rw [raw_ttt_svZero, d1_taa, d1_caa, d1_aaa, d1_gaa]
  norm_num

theorem raw_ata_svZero (d : PyDict ℚ) : rawW svZero d cATA = 1 := by
  rw [rawW_ata]
  norm_num [svZero]

theorem d1_WF : ∀ a ∈ codonsAll, (dictGet (set_tGCN dAAA1) a).isSome := by
  decide

theorem d1_bound (c : Codon) : rawW svZero (set_tGCN dAAA1) c ≤ 1 :=
  rawW_single svZero svZero_nonneg _ ['a','a','a'] 1 le_rfl d1_vals
    (le_of_eq d1_getD_aaa) (by rw [d1_getD_aaa]; norm_num) c

theorem senseMapNeNil (f : Codon → ℚ) : senseOrder.map f ≠ [] :=
  fun h => absurd (List.map_eq_nil_iff.mp h) (by decide)

theorem d1z_ok : ∃ wl, set_w svZero (set_tGCN dAAA1) = .ok wl
    ∧ dictGet wl cATA = some ((1 : ℚ) : ℝ) := by
  obtain ⟨m, hm, hmpos, wl, hwl, hkeys, hvals⟩ :=
    set_w_spec svZero (set_tGCN dAAA1) svZero_le_one d1_nonneg d1_WF
      ⟨cTTT, by decide, by rw [raw_ttt_d1]; norm_num⟩
  have hmB : m = 1 := by
    have h2 := pyMax_exact
      (senseOrder.map (fun c => rawW svZero (set_tGCN dAAA1) c))
      (senseMapNeNil _) 1
      (fun x hx => by
        obtain ⟨c, _, rfl⟩ := List.mem_map.mp hx
        exact d1_bound c)
      (List.mem_map.mpr ⟨cTTT, by decide, raw_ttt_d1⟩)
    injection hm.symm.trans h2
  have hlook := (hvals cATA (by decide)).1 (by rw [raw_ata_svZero]; norm_num)
  refine ⟨wl, hwl, ?_⟩
  rw [hlook, raw_ata_svZero, hmB]
  norm_num

/-- The tGCN table after `add_tRNA_genes({'aaa': 1})` on the table built from
{'aaa': 1}: the entry of 'aaa' becomes `1 + 1 * 1`. -/
def D2 : PyDict ℚ := dictSet (set_tGCN dAAA1) ['a','a','a'] (1 + 1 * 1)

theorem d2_taa : dictGet D2 ['t','a','a'] = some 0 := by
  unfold D2
  rw [dictGet_dictSet_ne _ _ _ _ (by decide)]
  exact d1_taa

theorem d2_caa : dictGet D2 ['c','a','a'] = some 0 := by
  unfold D2
  rw [dictGet_dictSet_ne _ _ _ _ (by decide)]
  exact d1_caa

theorem d2_gaa : dictGet D2 ['g','a','a'] = some 0 := by
  unfold D2
  rw [dictGet_dictSet_ne _ _ _ _ (by decide)]
  exact d1_gaa

theorem d2_aaa : dictGet D2 ['a','a','a'] = some (1 + 1 * 1) := by
  unfold D2
  exact dictGet_dictSet_self _ _ _

theorem d2_getD_aaa : (dictGet D2 ['a','a','a']).getD 0 = 1 + 1 * 1 := by
  rw [d2_aaa]
  rfl

theorem d2_vals (a : Codon) (ha : a ≠ ['a','a','a']) :
    (dictGet D2 a).getD 0 = 0 := by
  unfold D2
  rw [dictGet_dictSet_ne _ _ _ _ (fun h => ha h.symm)]
  exact d1_vals a ha

theorem d2_nonneg (p : Codon × ℚ) (hp : p ∈ D2) : 0 ≤ p.2 := by
  unfold D2 at hp
  rcases mem_dictSet _ _ _ _ hp with h | h
  · rw [h]
    norm_num
  · exact d1_nonneg p h

theorem d2_WF : ∀ a ∈ codonsAll, (dictGet D2 a).isSome := by
  intro a ha
  unfold D2
  exact isSome_dictGet_dictSet _ _ _ _ (d1_WF a ha)

theorem raw_ttt_d2 : rawW svZero D2 cTTT = 2 := by
  rw [raw_ttt_svZero, d2_taa, d2_caa, d2_aaa, d2_gaa]
  norm_num

theorem d2_bound (c : Codon) : rawW svZero D2 c ≤ 2 :=
  rawW_single svZero svZero_nonneg D2 ['a','a','a'] 2 (by norm_num) d2_vals
    (by rw [d2_getD_aaa]; norm_num) (by rw [d2_getD_aaa]; norm_num) c

theorem d2z_ok : ∃ wl, set_w svZero D2 = .ok wl
    ∧ dictGet wl cATA = some ((1/2 : ℚ) : ℝ) := by
  obtain ⟨m, hm, hmpos, wl, hwl, hkeys, hvals⟩ :=
    set_w_spec svZero D2 svZero_le_one d2_nonneg d2_WF
      ⟨cTTT, by decide, by rw [raw_ttt_d2]; norm_num⟩
  have hmB : m = 2 := by
    have h2 := pyMax_exact (senseOrder.map (fun c => rawW svZero D2 c))
      (senseMapNeNil _) 2
      (fun x hx => by
        obtain ⟨c, _, rfl⟩ := List.mem_map.mp hx
        exact d2_bound c)
      (List.mem_map.mpr ⟨cTTT, by decide, raw_ttt_d2⟩)
    injection hm.symm.trans h2
  have hlook := (hvals cATA (by decide)).1 (by rw [raw_ata_svZero]; norm_num)
  refine ⟨wl, hwl, ?_⟩
  rw [hlook, raw_ata_svZero, hmB]

theorem haddL : addLoop (set_tGCN dAAA1) 1 dAAA1 = (D2, none) := by
  have h1 : dictGet (set_tGCN [((['a','a','a'] : Codon), (1 : ℚ))])
      ['a','a','a'] = some 1 := d1_aaa
  rw [show addLoop (set_tGCN dAAA1) 1 dAAA1 =
    addLoop (dictSet (set_tGCN dAAA1) ['a','a','a'] (1 + 1 * 1)) 1 [] from by
      simp only [dAAA1, addLoop, show normSeq ['a','a','a'] = ['a','a','a']
        from rfl, h1]]
  rfl

/-- Claim C2 (amended): after a completed `update` (and hence `construct`)
the stored weight table is exactly what `set_w_dict` derives from the
current tGCN table, but `add_tRNA_genes` never recomputes the weight
table — it leaves `w_dict` unchanged while mutating `tGCN_dict`. -/
theorem claim_C2 (sv : Char → Char → ℚ) (t t2 : TAI) (counts : PyDict ℚ)
    (expr : ℚ) (h : TAI.update sv t counts = (t2, none)) :
    set_w sv t2.tGCN_dict = .ok t2.w_dict
    ∧ (TAI.add_tRNA_genes t counts expr).1.w_dict = t.w_dict := by
  constructor
  · obtain ⟨r, hr⟩ : ∃ r, set_w sv (set_tGCN counts) = r := ⟨_, rfl⟩
    rw [TAI.update_eq, hr] at h
    cases r with
    | ok w =>
        rw [applyW_ok] at h
        have h2 : (⟨set_tGCN counts, w⟩ : TAI) = t2 := by
          have := congrArg Prod.fst h
          simpa using this
        rw [← h2]
        simpa using hr
    | error e2 =>
        rw [applyW_err] at h
        have := congrArg Prod.snd h
        simp at this
  · rw [TAI.add_eq]

/-- Counterexample to C2 as stated: construct a calculator from {'aaa': 1}
with the all-zero affinity table, then run the completed operation
`add_tRNA_genes({'aaa': 1})`.  The stored normalized weight of 'ata' is
still 1, but recomputing the weights from the current tGCN table gives
'ata' the weight 1/2 — the stored `w` is stale. -/
theorem claim_C2_cex :
    (TAI.add_tRNA_genes (TAI.construct svZero dAAA1).1 dAAA1 1).2 = none
    ∧ dictGet
        (TAI.add_tRNA_genes (TAI.construct svZero dAAA1).1 dAAA1 1).1.w_dict
        cATA = some ((1 : ℚ) : ℝ)
    ∧ (∃ wl2, set_w svZero
        (TAI.add_tRNA_genes (TAI.construct svZero dAAA1).1 dAAA1 1).1.tGCN_dict
          = .ok wl2
        ∧ dictGet wl2 cATA = some ((1/2 : ℚ) : ℝ))
    ∧ ((1 : ℚ) : ℝ) ≠ ((1/2 : ℚ) : ℝ) := by
  obtain ⟨wl1, hwl1, hlook1⟩ := d1z_ok
  obtain ⟨wl2, hwl2, hlook2⟩ := d2z_ok
  have ht0 : TAI.construct svZero dAAA1 = (⟨set_tGCN dAAA1, wl1⟩, none) := by
    rw [TAI.construct_eq]
    exact update_ok svZero ⟨[], []⟩ dAAA1 wl1 hwl1
  have hadd : TAI.add_tRNA_genes (TAI.construct svZero dAAA1).1 dAAA1 1 =
      (⟨D2, wl1⟩, none) := by
    rw [TAI.add_eq, ht0]
    rw [show ((⟨set_tGCN dAAA1, wl1⟩ : TAI),
        (none : Option PyErr)).1.tGCN_dict = set_tGCN dAAA1 from rfl,
      show ((⟨set_tGCN dAAA1, wl1⟩ : TAI),
        (none : Option PyErr)).1.w_dict = wl1 from rfl,
      haddL]
  rw [hadd]
  refine ⟨rfl, ?_, ⟨wl2, ?_, hlook2⟩, ?_⟩
  · show dictGet wl1 cATA = some ((1 : ℚ) : ℝ)
    exact hlook1
  · show set_w svZero D2 = .ok wl2
    exact hwl2
  · norm_num

/-- Witness for C2 (amended) at the concrete completed update from
{'aaa': 1}: the stored weight table is consistent right after the update. -/
theorem claim_C2_witness :
    set_w svZero ((TAI.update svZero ⟨[], []⟩ dAAA1).1).tGCN_dict =
      .ok ((TAI.update svZero ⟨[], []⟩ dAAA1).1).w_dict := by
  obtain ⟨wl1, hwl1, _⟩ := d1z_ok
  refine (claim_C2 svZero ⟨[], []⟩ ((TAI.update svZero ⟨[], []⟩ dAAA1).1)
    dAAA1 1 ?_).1
  rw [update_ok svZero ⟨[], []⟩ dAAA1 wl1 hwl1]

/-- The characters a valid nucleotide sequence may contain. -/
def validChars : List Char := ['a','c','g','t','u','A','C','G','T','U']

theorem normChar_dna (ch : Char) (h : ch ∈ validChars) :
    (if pyLower ch = 'u' then 't' else pyLower ch) ∈ dnaBases := by
  fin_cases h <;> decide

theorem dna_to_bases (ch : Char) (h : ch ∈ dnaBases) : ch ∈ basesList := by
  fin_cases h <;> decide

theorem chunk3_mem : ∀ (l : List Char), ∀ c0 ∈ chunk3 l,
    ∃ x y z, c0 = [x, y, z] ∧ x ∈ l ∧ y ∈ l ∧ z ∈ l
  | [] => by
      intro c0 hc0
      rw [show chunk3 [] = ([] : List Codon) from rfl] at hc0
      exact absurd hc0 (List.not_mem_nil c0)
  | [a] => by
      intro c0 hc0
      rw [show chunk3 [a] = ([] : List Codon) from rfl] at hc0
      exact absurd hc0 (List.not_mem_nil c0)
  | [a, b] => by
      intro c0 hc0
      rw [show chunk3 [a, b] = ([] : List Codon) from rfl] at hc0
      exact absurd hc0 (List.not_mem_nil c0)
  | a :: b :: c :: rest => by
      intro c0 hc0
      rw [show chunk3 (a :: b :: c :: rest) = [a, b, c] :: chunk3 rest
        from rfl] at hc0
      rcases List.mem_cons.mp hc0 with h2 | h2
      · exact ⟨a, b, c, h2, by simp, by simp, by simp⟩
      · obtain ⟨x, y, z, hxyz, hx, hy, hz⟩ := chunk3_mem rest c0 h2
        exact ⟨x, y, z, hxyz, by simp [hx], by simp [hy], by simp [hz]⟩

theorem lookupW_ok (w : PyDict ℝ) (cs : List Codon)
    (h : ∀ c ∈ cs, (dictGet w c).isSome) :
    lookupW w cs = .ok (cs.map (fun c => (dictGet w c).getD 0)) := by
  induction cs with
  | nil => rfl
  | cons c rest ih =>
      obtain ⟨v, hv⟩ := Option.isSome_iff_exists.mp
        (h c (List.mem_cons_self _ _))
      simp only [lookupW, hv,
        ih (fun c2 h2 => h c2 (List.mem_cons_of_mem _ h2))]
      simp [Except.map, hv]

theorem seq_codons_good (seq : List Char)
    (hseq : ∀ ch ∈ seq, ch ∈ validChars) :
    ∀ c ∈ get_sequence_codons seq,
      (∀ ch ∈ c, ch ∈ dnaBases) ∧ c ∈ senseOrder := by
  have hnorm : ∀ ch ∈ normSeq seq, ch ∈ dnaBases := by
    intro ch hch
    unfold normSeq at hch
    obtain ⟨c1, hc1, rfl⟩ := List.mem_map.mp hch
    obtain ⟨c0, hc0, rfl⟩ := List.mem_map.mp hc1
    exact normChar_dna c0 (hseq c0 hc0)
  intro c hc
  unfold get_sequence_codons at hc
  obtain ⟨hmem, hfb⟩ := List.mem_filter.mp hc
  obtain ⟨x, y, z, rfl, hx, hy, hz⟩ := chunk3_mem (normSeq seq) c hmem
  have hchars : ∀ ch ∈ ([x, y, z] : Codon), ch ∈ dnaBases := by
    intro ch hch
    rcases List.mem_cons.mp hch with h2 | h2
    · exact h2 ▸ hnorm x hx
    · rcases List.mem_cons.mp h2 with h3 | h3
      · exact h3 ▸ hnorm y hy
      · rcases List.mem_cons.mp h3 with h4 | h4
        · exact h4 ▸ hnorm z hz
        · simp at h4
  have hcall : ([x, y, z] : Codon) ∈ codonsAll :=
    (mem_codonsAll_iff _).mpr ⟨x, dna_to_bases x (hnorm x hx),
      y, dna_to_bases y (hnorm y hy), z, dna_to_bases z (hnorm z hz), rfl⟩
  have hnr : ([x, y, z] : Codon) ∉ codons_to_remove := by simpa using hfb
  have h4 : ([x, y, z] : Codon) ∉ [cATG, cTAA, cTAG, cTGA] := by
    simp only [cATG, cTAA, cTAG, cTGA, List.mem_cons, List.not_mem_nil,
      or_false]
    simp only [codons_to_remove, List.mem_cons, List.not_mem_nil,
      or_false] at hnr
    tauto
  exact ⟨hchars, List.mem_filter.mpr ⟨hcall, by simpa using h4⟩⟩

/-- Claim C1: for every sequence over the nucleotide alphabet and every
calculator whose weight table covers the 60 weighted codons, `get_tai`
returns the geometric mean of the stored normalized weights of the codons
obtained by normalizing the sequence, segmenting it into 3-base windows,
and filtering out 'atg', 'taa', 'tga' and 'tag', in order of appearance
(when that list is empty, both sides are the same `TypeError`). -/
theorem claim_C1 (t : TAI) (seq : List Char)
    (hseq : ∀ ch ∈ seq, ch ∈ validChars)
    (hWF : ∀ c ∈ senseOrder, (dictGet t.w_dict c).isSome) :
    TAI.get_tai t seq =
      geo_mean (((chunk3 (normSeq seq)).filter
          (fun c => !decide (c ∈ codons_to_remove))).map
        (fun c => (dictGet t.w_dict c).getD 0)) := by
  have hgood := seq_codons_good seq hseq
  have hlower : (get_sequence_codons seq).map (fun c => c.map pyLower) =
      get_sequence_codons seq := by
    rw [show (get_sequence_codons seq).map (fun c => c.map pyLower) =
      (get_sequence_codons seq).map id from List.map_congr_left ?_]
    · exact List.map_id _
    · intro c hc
      show c.map pyLower = c
      rw [show c.map pyLower = c.map id from List.map_congr_left
        (fun ch hch => pyLower_base ch ((hgood c hc).1 ch hch))]
      exact List.map_id c
  rw [TAI.get_tai_eq, hlower,
    lookupW_ok t.w_dict _ (fun c hc => hWF c (hgood c hc).2)]
  rfl

/-- A weight table giving every weighted codon the weight 1, used to
instantiate C1 concretely. -/
noncomputable def wOne : PyDict ℝ := senseOrder.map (fun c => (c, 1))

/-- Witness for C1 at the concrete sequence "ATGaaaTAA" (upper/lower mixed)
and the all-ones weight table. -/
theorem claim_C1_witness :
    TAI.get_tai ⟨[], wOne⟩ ['A','T','G','a','a','a','T','A','A'] =
      geo_mean (((chunk3 (normSeq ['A','T','G','a','a','a','T','A','A'])).filter
          (fun c => !decide (c ∈ codons_to_remove))).map
        (fun c => (dictGet wOne c).getD 0)) :=
  claim_C1 ⟨[], wOne⟩ ['A','T','G','a','a','a','T','A','A'] (by decide)
    (fun c hc => by
      rw [show dictGet (⟨[], wOne⟩ : TAI).w_dict c = dictGet wOne c from rfl,
        wOne, dictGet_map_graph senseOrder (fun _ => (1 : ℝ)) c hc]
      rfl)
